import Mathlib

/-!
Verification of the assdiff3 three-way merge core.

This file gives a shallow embedding of the merge core of `assdiff3.py`:
the field-level record merge (`ASSLine.merge`), the key/value section
merge (`merge_keyval`), the extradata side-table reconciliation
(`merge_extradata`), the generalized LCS sequence matcher
(`LineMatcher.lcs` / `LineMatcher.find_matches`) and the three-way merge
engine (`diff3` with its hunk classification `process_hunks`).

Python dictionaries are embedded as association lists with first-binding
lookup; Python generators become functions returning lists; the in-place
mutation of record objects in `merge_extradata` becomes explicit rebuilding
of the per-version data.  The engine walk additionally returns the list of
hunk flushes it performed, so that control-flow properties (when a hunk is
flushed, whether the conflict handler is invoked) are observable.
-/

namespace Assdiff3

/-- Association-list lookup with first-binding-wins semantics, modelling a
Python dict lookup (`m[k]` / `m.get(k)`). -/
def lookupA {κ β : Type} [DecidableEq κ] : List (κ × β) → κ → Option β
  | [], _ => none
  | p :: rest, k => if p.1 = k then some p.2 else lookupA rest k

/-- Insertion of `x` into a list before its first element not below `x`. -/
def insertLe {α : Type} (le : α → α → Bool) (x : α) : List α → List α
  | [] => [x]
  | y :: t => if le x y then x :: y :: t else y :: insertLe le x t

/-- Sorting with respect to a boolean total preorder by repeated
insertion.  For the comparators used in this file any two elements that
compare equal in both directions are identical, so this produces the same
list as Python's stable sorts and `heapq.merge`. -/
def sortLe {α : Type} (le : α → α → Bool) : List α → List α
  | [] => []
  | x :: t => insertLe le x (sortLe le t)

/-! ### Records (`ASSLine`) -/

/-- A typed record is embedded as its field mapping in schema order
(the `Type` pseudo-field included), an ordered association list of
field name to string value, matching `ASSLine.fields` plus `Type`. -/
abbrev RecT := List (String × String)

/-- Keys (field names) of a record, in schema order. -/
def keysOf (r : RecT) : List String := r.map Prod.fst

/-- Fields of `x` whose value differs from the ancestor `parent`
(`{field: value for field, value in x.items() if value != parent[field]}`). -/
def changedFields (x parent : RecT) : RecT :=
  x.filter (fun fv => decide (lookupA parent fv.1 ≠ some fv.2))

/-- One field of `{**parent, **changed_a, **changed_b}`: the entry of
`changed_b` for this field name if any, else the entry of `changed_a`,
else the parent's field unchanged. -/
def overrideField (changed_a changed_b : RecT) (fv : String × String) :
    String × String :=
  match lookupA changed_b fv.1 with
  | some w => (fv.1, w)
  | none =>
    match lookupA changed_a fv.1 with
    | some u => (fv.1, u)
    | none => fv

/-- Field-level three-way merge, `ASSLine.merge(cls, a, parent, b)`:
collect the fields of `a` whose value differs from `parent`, likewise for
`b`; if the two changed-field key sets intersect, fail (`None`); otherwise
build `{**parent, **changed_a, **changed_b}`. -/
def ASSLine.merge (a parent b : RecT) : Option RecT :=
  let changed_a := changedFields a parent
  let changed_b := changedFields b parent
  if changed_a.any (fun fv => changed_b.any (fun gw => decide (fv.1 = gw.1))) then
    none
  else
    some (parent.map (overrideField changed_a changed_b))

/-! ### Key/value section merge (`merge_keyval`) -/

/-- Insertion into an ordered map embedded as an association list with
unique keys: an existing key keeps its position and gets the new value,
a new key is appended at the end (Python `OrderedDict` assignment). -/
def odInsert (m : List (String × String)) (k v : String) : List (String × String) :=
  if m.any (fun p => decide (p.1 = k)) then
    m.map (fun p => if p.1 = k then (k, v) else p)
  else m ++ [(k, v)]

/-- `lines_to_map`: build an ordered key/value map from section lines
(a line contributes its `Type` as key and `Value` as value; later
duplicates overwrite in place). -/
def lines_to_map (lines : List (String × String)) : List (String × String) :=
  lines.foldl (fun m p => odInsert m p.1 p.2) []

/-- Apply a sequence of key/value assignments to an ordered map
(Python `OrderedDict.update`). -/
def odUpdate (m upd : List (String × String)) : List (String × String) :=
  upd.foldl (fun acc p => odInsert acc p.1 p.2) m

/-- Three-way merge of key/value sections, `merge_keyval(A, O, B)` with the
`--script-info` precedence flag (`ours = true` keeps the local side's value
on a collision).  Changed sets are computed against the ancestor map; then
the non-preferred side's removals and updates are applied first, the
preferred side's second, onto the ancestor map. -/
def merge_keyval (ours : Bool) (A O B : List (String × String)) :
    List (String × String) :=
  let a_map := lines_to_map A
  let o_map := lines_to_map O
  let b_map := lines_to_map B
  let a_changed := a_map.filter (fun kv => decide (lookupA o_map kv.1 ≠ some kv.2))
  let b_changed := b_map.filter (fun kv => decide (lookupA o_map kv.1 ≠ some kv.2))
  let a_removed := fun k =>
    decide (lookupA a_map k = none) && decide (lookupA o_map k ≠ none)
  let b_removed := fun k =>
    decide (lookupA b_map k = none) && decide (lookupA o_map k ≠ none)
  let firstRem := if ours then b_removed else a_removed
  let firstCh := if ours then b_changed else a_changed
  let secondRem := if ours then a_removed else b_removed
  let secondCh := if ours then a_changed else b_changed
  let m1 := o_map.filter (fun kv => ! firstRem kv.1)
  let m2 := odUpdate m1 firstCh
  let m3 := m2.filter (fun kv => ! secondRem kv.1)
  odUpdate m3 secondCh

/-! ### Side-table reconciliation (`merge_extradata`) -/

/-- An extradata side-table entry: `DataLine` with its integer `Id` and its
`Key`/`Value` strings. -/
structure DataEntry where
  id : Int
  key : String
  value : String
deriving DecidableEq

/-- Reconciliation state threaded through `merge_extradata`: the
content-to-assigned-id map, the assigned-id-to-entry map and the running
maximum of assigned ids. -/
structure EDState where
  extradataToId : List ((String × String) × Int)
  idToExtradata : List (Int × DataEntry)
  largestId : Int
deriving DecidableEq

/-- One document version's data relevant to reconciliation: its extradata
entries and, for each event line, its list of reference indices. -/
structure FileData where
  extradata : List DataEntry
  events : List (List Int)
deriving DecidableEq

/-- Processing of one extradata line inside `merge_extradata`: adopt the id
already assigned to identical content if any; otherwise keep the original
id unless it is already taken, in which case reassign to `largest_id + 1`;
register fresh content and raise the high-water mark; always record the
original-id-to-new-id mapping. -/
def edStep (s : EDState × List (Int × Int) × List DataEntry) (e : DataEntry) :
    EDState × List (Int × Int) × List DataEntry :=
  match lookupA s.1.extradataToId (e.key, e.value) with
  | some i =>
    (s.1, (e.id, i) :: s.2.1, s.2.2 ++ [{ e with id := i }])
  | none =>
    let newId := if lookupA s.1.idToExtradata e.id ≠ none then s.1.largestId + 1 else e.id
    let e2 := { e with id := newId }
    ({ extradataToId := ((e.key, e.value), newId) :: s.1.extradataToId,
       idToExtradata := (newId, e2) :: s.1.idToExtradata,
       largestId := max s.1.largestId newId },
     (e.id, newId) :: s.2.1,
     s.2.2 ++ [e2])

/-- Rewriting of one event's reference-index list through the per-version
old-id-to-new-id map, dropping unmapped references
(`[id_map[i] for i in dialogue_line.extra_indices if i in id_map]`). -/
def rewriteIndices (idMap : List (Int × Int)) (ev : List Int) : List Int :=
  ev.filterMap (fun i => lookupA idMap i)

/-- Processing of one document version inside `merge_extradata`: fold
`edStep` over its extradata lines, then rewrite every event's
reference-index list through the version's id map. -/
def processFile (st : EDState) (f : FileData) : EDState × FileData :=
  let r := f.extradata.foldl edStep (st, [], [])
  (r.1, { extradata := r.2.2, events := f.events.map (rewriteIndices r.2.1) })

/-- Comparison used to sort the merged table by assigned id. -/
def intLe (a b : Int) : Bool := decide (a ≤ b)

/-- The reconciliation-state invariant of `merge_extradata`: assigned ids
are unique and below the high-water mark, every table entry carries its
assigned id, contents are registered at most once, and the content map and
the id map mirror each other. -/
def edInv (st : EDState) : Prop :=
  (st.idToExtradata.map Prod.fst).Nodup ∧
  (∀ q ∈ st.idToExtradata, q.2.id = q.1) ∧
  (∀ q ∈ st.idToExtradata, q.1 ≤ st.largestId) ∧
  (st.extradataToId.map Prod.fst).Nodup ∧
  (∀ c ∈ st.extradataToId,
    ∃ q ∈ st.idToExtradata, q.1 = c.2 ∧ (q.2.key, q.2.value) = c.1) ∧
  (∀ q ∈ st.idToExtradata,
    lookupA st.extradataToId (q.2.key, q.2.value) = some q.1)

/-- Monotone growth of the reconciliation state: registered contents keep
their assigned id and table entries persist. -/
def edExt (st st2 : EDState) : Prop :=
  (∀ c i, lookupA st.extradataToId c = some i →
    lookupA st2.extradataToId c = some i) ∧
  (∀ q ∈ st.idToExtradata, q ∈ st2.idToExtradata)

/-- The merged side table: entries of `id_to_extradata` listed by ascending
assigned id (`[id_to_extradata[i] for i in sorted(id_to_extradata)]`). -/
def mergedTable (st : EDState) : List DataEntry :=
  (sortLe (fun p q => intLe p.1 q.1) st.idToExtradata).map Prod.snd

/-- Side-table reconciliation, `merge_extradata(mine, parent, their)`:
process the three versions in the order parent, mine, their, and return the
merged table together with the three rewritten versions (the Python code
mutates the versions in place). -/
def merge_extradata (mine parent their : FileData) :
    List DataEntry × FileData × FileData × FileData :=
  let st0 : EDState := { extradataToId := [], idToExtradata := [], largestId := 0 }
  let p1 := processFile st0 parent
  let p2 := processFile p1.1 mine
  let p3 := processFile p2.1 their
  (mergedTable p3.1, p2.2, p1.2, p3.2)

/-! ### Sequence matcher (`LineMatcher`) -/

/-- A divide-and-conquer window `(ai, aj, bi, bj)` over the two sequences. -/
abbrev Window := ℕ × ℕ × ℕ × ℕ

/-- A match triple `(start_a, start_b, length)`. -/
abbrev MatchT := ℕ × ℕ × ℕ

/-- Positions of `b` whose key under memoizer `m` equals `k`, in ascending
order: the postings list stored in the matcher's `index_maps`. -/
def postings {α κ : Type} [DecidableEq κ] (m : α → κ) (b : List α) (k : κ) :
    List ℕ :=
  b.enum.filterMap (fun p => if m p.2 = k then some p.1 else none)

/-- Comparison on naturals as a boolean, for sorting candidate positions. -/
def natLe (a b : ℕ) : Bool := decide (a ≤ b)

/-- Candidate match positions for one record of `a`: the ascending merge,
duplicates allowed, of the postings lists of every memoizer applied to that
record (`heapq.merge(*(imap.get(memoizer(line_a), []) ...))`). -/
def bMatchesFor {α κ : Type} [DecidableEq κ] (ms : List (α → κ)) (b : List α)
    (x : α) : List ℕ :=
  sortLe natLe ((ms.map (fun m => postings m b (m x))).flatten)

/-- The run length ending at position `j - 1` in the previous row,
`match_lengths.get(j - 1, 0)` (zero when `j` is the first column). -/
def prevLen (prev : ℕ → ℕ) : ℕ → ℕ
  | 0 => 0
  | j' + 1 => prev j'

/-- One step of the longest-run dynamic program in `LineMatcher._lcs`, for
one candidate position `j` of row `i`: extend the run ending at `j - 1` in
the previous row by one, record it in the updated row, and track the
longest run seen so far as `(longest, start_a, start_b)`. -/
def lcsRowStep (prev : ℕ → ℕ) (i : ℕ)
    (acc : (ℕ → ℕ) × (ℕ × ℕ × ℕ)) (j : ℕ) : (ℕ → ℕ) × (ℕ × ℕ × ℕ) :=
  let len := prevLen prev j + 1
  let upd2 := fun j2 => if j2 = j then len else acc.1 j2
  if acc.2.1 < len then (upd2, (len, i + 1 - len, j + 1 - len))
  else (upd2, acc.2)

/-- One row of the dynamic program: fold `lcsRowStep` over the candidate
positions `js` of row `i`, starting from an empty updated row. -/
def lcsRow (prev : ℕ → ℕ) (i : ℕ) (js : List ℕ) (st : ℕ × ℕ × ℕ) :
    (ℕ → ℕ) × (ℕ × ℕ × ℕ) :=
  js.foldl (lcsRowStep prev i) ((fun _ => 0), st)

/-- The candidate positions scanned in row `i`: the merged postings
restricted to `bi ≤ j` (skipped by `continue`) and cut at `bj` (the
`break`). -/
def lcsCandidates {α κ : Type} [DecidableEq κ] (ms : List (α → κ))
    (a b : List α) (bi bj i : ℕ) : List ℕ :=
  match a.get? i with
  | none => []
  | some x =>
    ((bMatchesFor ms b x).filter (natLe bi)).takeWhile
      (fun j => decide (j < bj))

/-- Processing of one row of the window inside `LineMatcher._lcs`. -/
def lcsOuterStep {α κ : Type} [DecidableEq κ] (ms : List (α → κ))
    (a b : List α) (bi bj : ℕ) (acc : (ℕ → ℕ) × (ℕ × ℕ × ℕ)) (i : ℕ) :
    (ℕ → ℕ) × (ℕ × ℕ × ℕ) :=
  lcsRow acc.1 i (lcsCandidates ms a b bi bj i) acc.2

/-- The single longest matching run inside the window `(ai, aj, bi, bj)`,
`LineMatcher._lcs`: returns `(start_a, start_b, longest_match)` with the
initial value `(ai, bi, 0)` when no candidate matches. -/
def LineMatcher.lcs {α κ : Type} [DecidableEq κ] (ms : List (α → κ))
    (a b : List α) (ai aj bi bj : ℕ) : MatchT :=
  let r := (List.range' ai (aj - ai)).foldl (lcsOuterStep ms a b bi bj)
    ((fun _ => 0), (0, ai, bi))
  (r.2.2.1, r.2.2.2, r.2.1)

/-- Size of a divide-and-conquer window, the termination measure of the
worklist loop. -/
def winSize (w : Window) : ℕ := (w.2.1 - w.1) + (w.2.2.2 - w.2.2.1)

/-- Combined measure of a worklist: windows shrink strictly, so this
bounds the number of remaining loop iterations. -/
def queueMeasure (q : List Window) : ℕ := 2 * (q.map winSize).sum + q.length

/-- Invariant of one dynamic-program row of `LineMatcher._lcs`: every
nonzero entry lies in `[bi, bj)`, extends a run inside `[bi, _]`, and is no
longer than the number of rows processed. -/
def rowInv (bi bj r : ℕ) (f : ℕ → ℕ) : Prop :=
  ∀ j, f j ≠ 0 → bi ≤ j ∧ j < bj ∧ f j ≤ j + 1 - bi ∧ f j ≤ r

/-- Invariant of the tracked longest run `(longest, start_a, start_b)` of
`LineMatcher._lcs` after the rows before `u` have been processed. -/
def stInv (ai bi bj u : ℕ) (st : ℕ × ℕ × ℕ) : Prop :=
  (st.1 = 0 → st.2.1 = ai ∧ st.2.2 = bi) ∧
  (0 < st.1 → ai ≤ st.2.1 ∧ st.2.1 + st.1 ≤ u ∧ bi ≤ st.2.2 ∧
    st.2.2 + st.1 ≤ bj)

/-- Ordering between the worklist items (windows and recorded matches) of
`find_matches`: the left item lies strictly before the right one in both
coordinate spaces. -/
def itemLe : Window ⊕ MatchT → Window ⊕ MatchT → Prop
  | .inl w1, .inl w2 => w1.2.1 ≤ w2.1 ∧ w1.2.2.2 ≤ w2.2.2.1
  | .inl w, .inr m => w.2.1 ≤ m.1 ∧ w.2.2.2 ≤ m.2.1
  | .inr m, .inl w =>
    m.1 + m.2.2 ≤ w.1 ∧ m.2.1 + m.2.2 ≤ w.2.2.1 ∧ m.1 < w.1 ∧ m.2.1 < w.2.2.1
  | .inr m1, .inr m2 =>
    m1.1 + m1.2.2 ≤ m2.1 ∧ m1.2.1 + m1.2.2 ≤ m2.2.1 ∧ m1.1 < m2.1 ∧
      m1.2.1 < m2.2.1

/-- Compatibility of two worklist items: one lies before the other. -/
def itemCompat (x y : Window ⊕ MatchT) : Prop := itemLe x y ∨ itemLe y x

/-- Well-formedness of a window with respect to the sequence lengths. -/
def winWF (lenA lenB : ℕ) (w : Window) : Prop :=
  w.1 ≤ w.2.1 ∧ w.2.1 ≤ lenA ∧ w.2.2.1 ≤ w.2.2.2 ∧ w.2.2.2 ≤ lenB

/-- Well-formedness of a recorded match: it lies inside the sequences. -/
def matchWF (lenA lenB : ℕ) (m : MatchT) : Prop :=
  m.1 + m.2.2 ≤ lenA ∧ m.2.1 + m.2.2 ≤ lenB

/-- The worklist invariant of `find_matches`: windows are well-formed,
matches lie inside the sequences, and any two items are ordered one before
the other in both coordinates. -/
def matcherInv (lenA lenB : ℕ) (q : List Window) (acc : List MatchT) : Prop :=
  (∀ w ∈ q, winWF lenA lenB w) ∧ (∀ m ∈ acc, matchWF lenA lenB m) ∧
    List.Pairwise itemCompat (q.map Sum.inl ++ acc.map Sum.inr)

/-- Lexicographic comparison of match triples, the order used by
`matches.sort()`. -/
def tripLe (m1 m2 : MatchT) : Bool :=
  decide (m1.1 < m2.1) ||
    (decide (m1.1 = m2.1) &&
      (decide (m1.2.1 < m2.2.1) ||
        (decide (m1.2.1 = m2.2.1) && decide (m1.2.2 ≤ m2.2.2))))

/-- Worklist loop of `LineMatcher.find_matches`: pop a window from the
front of the queue; skip it when it is empty in either coordinate;
otherwise record the longest run found in it and, when that run is
nonempty, push the sub-windows strictly before and strictly after it.
The fuel argument bounds the number of iterations; `matcherFuel` below is
always sufficient. -/
def findMatchesGo {α κ : Type} [DecidableEq κ] (ms : List (α → κ))
    (a b : List α) : ℕ → List Window → List MatchT → List MatchT
  | 0, _, acc => acc
  | _ + 1, [], acc => acc
  | fuel + 1, (ai, aj, bi, bj) :: queue, acc =>
    if aj - ai ≤ 0 ∨ bj - bi ≤ 0 then findMatchesGo ms a b fuel queue acc
    else
      let m := LineMatcher.lcs ms a b ai aj bi bj
      if 0 < m.2.2 then
        findMatchesGo ms a b fuel
          (queue ++ [(ai, m.1, bi, m.2.1), (m.1 + m.2.2, aj, m.2.1 + m.2.2, bj)])
          (acc ++ [m])
      else findMatchesGo ms a b fuel queue (acc ++ [m])

/-- Fuel sufficient for the worklist loop on the initial window. -/
def matcherFuel {α : Type} (a b : List α) : ℕ := 2 * (a.length + b.length) + 2

/-- `LineMatcher.find_matches`: run the worklist loop from the full window
and sort the collected match triples lexicographically. -/
def LineMatcher.find_matches {α κ : Type} [DecidableEq κ] (ms : List (α → κ))
    (a b : List α) : List MatchT :=
  sortLe tripLe
    (findMatchesGo ms a b (matcherFuel a b) [(0, a.length, 0, b.length)] [])

/-! ### Three-way merge engine (`diff3`) -/

/-- Dense ancestor-position to other-position pairs covered by an
alignment, in match order (`map_indices`). -/
def map_indices (mts : List MatchT) : List (ℕ × ℕ) :=
  mts.flatMap (fun m => (List.range m.2.2).map (fun i => (m.1 + i, m.2.1 + i)))

/-- Content comparison of two index ranges, `hunks_equal(list1, hunk1,
list2, hunk2)`: same length and pairwise equal elements. -/
def hunks_equal {α : Type} [DecidableEq α] (l1 : List α) (h1 : List ℕ)
    (l2 : List α) (h2 : List ℕ) : Bool :=
  decide (h1.length = h2.length) &&
    (h1.zip h2).all (fun p => decide (l1.get? p.1 = l2.get? p.2))

/-- Outcome of the hunk classification in `process_hunks`. -/
inductive HunkChoice
  | takeA
  | takeB
  | resolve
deriving DecidableEq

/-- The hunk classification of `process_hunks`: emit the local range when
the two sides are content-identical or only the local side changed, emit
the remote range when only the remote side changed, otherwise invoke the
conflict handler. -/
def classify_hunk {α : Type} [DecidableEq α] (A B O : List α)
    (ah bh oh : List ℕ) : HunkChoice :=
  let a_changed := ! hunks_equal A ah O oh
  let b_changed := ! hunks_equal B bh O oh
  let ab_equal := hunks_equal A ah B bh
  if ab_equal || (a_changed && ! b_changed) then .takeA
  else if b_changed && ! a_changed then .takeB
  else .resolve

/-- The records of `X` at the indices of `h`, in order. -/
def sliceOf {α : Type} (X : List α) (h : List ℕ) : List α :=
  h.filterMap (fun i => X.get? i)

/-- `process_hunks(a_hunk, b_hunk, o_hunk)`: resolve one hunk according to
its classification, yielding either one side's slice or the conflict
handler's output. -/
def process_hunks {α : Type} [DecidableEq α] (A B O : List α)
    (ch : List α → List α → List α → List α) (ah bh oh : List ℕ) : List α :=
  match classify_hunk A B O ah bh oh with
  | .takeA => sliceOf A ah
  | .takeB => sliceOf B bh
  | .resolve => ch (sliceOf A ah) (sliceOf B bh) (sliceOf O oh)

/-- The index range `[lo, hi)` as a list (`range(lo, hi)`). -/
def rangeList (lo hi : ℕ) : List ℕ := List.range' lo (hi - lo)

/-- A flushed hunk: the three index ranges handed to `process_hunks`,
local, remote and ancestor. -/
abbrev FlushT := List ℕ × List ℕ × List ℕ

/-- The record triple merge attempted at a confirmed walk position,
`O[o].merge(A[a], O[o], B[b])`, out-of-range indices giving no merge. -/
def mergeIdx {α : Type} (mg : α → α → α → Option α) (A O B : List α)
    (a o b : ℕ) : Option α :=
  match A.get? a, O.get? o, B.get? b with
  | some x, some p, some y => mg x p y
  | _, _, _ => none

/-- The walk of `diff3` over the ancestor positions covered by both
alignments, carrying the next-unconfirmed cursors `na`, `nb`, `no_` (the
successors of `prev_a`, `prev_b`, `prev_o`).  A position missing from the
remote map or whose field merge fails is skipped; before yielding a merged
record a hunk is flushed when the local or remote position leaves a gap;
one final hunk covers the tails.  Returns the output records together with
the list of flushed hunks. -/
def diff3Walk {α : Type} [DecidableEq α] (mg : α → α → α → Option α)
    (ch : List α → List α → List α → List α) (A O B : List α)
    (oToB : List (ℕ × ℕ)) :
    List (ℕ × ℕ) → ℕ → ℕ → ℕ → List α × List FlushT
  | [], na, nb, no_ =>
    let fl : FlushT := (rangeList na A.length, rangeList nb B.length,
      rangeList no_ O.length)
    (process_hunks A B O ch fl.1 fl.2.1 fl.2.2, [fl])
  | (o, a) :: rest, na, nb, no_ =>
    match lookupA oToB o with
    | none => diff3Walk mg ch A O B oToB rest na nb no_
    | some b =>
      match mergeIdx mg A O B a o b with
      | none => diff3Walk mg ch A O B oToB rest na nb no_
      | some line =>
        let r := diff3Walk mg ch A O B oToB rest (a + 1) (b + 1) (o + 1)
        if na < a ∨ nb < b then
          let fl : FlushT := (rangeList na a, rangeList nb b, rangeList no_ o)
          (process_hunks A B O ch fl.1 fl.2.1 fl.2.2 ++ line :: r.1, fl :: r.2)
        else (line :: r.1, r.2)

/-- Modelled from the spec: the same walk, but flushing a hunk whenever
there is a gap since the last confirmed position in any of the three
coordinate spaces, the ancestor one included, as section 4.3 step 2 of the
specification describes.  Used to compare the source's flush condition
against the specified one. -/
def diff3WalkSpecGap {α : Type} [DecidableEq α] (mg : α → α → α → Option α)
    (ch : List α → List α → List α → List α) (A O B : List α)
    (oToB : List (ℕ × ℕ)) :
    List (ℕ × ℕ) → ℕ → ℕ → ℕ → List α × List FlushT
  | [], na, nb, no_ =>
    let fl : FlushT := (rangeList na A.length, rangeList nb B.length,
      rangeList no_ O.length)
    (process_hunks A B O ch fl.1 fl.2.1 fl.2.2, [fl])
  | (o, a) :: rest, na, nb, no_ =>
    match lookupA oToB o with
    | none => diff3WalkSpecGap mg ch A O B oToB rest na nb no_
    | some b =>
      match mergeIdx mg A O B a o b with
      | none => diff3WalkSpecGap mg ch A O B oToB rest na nb no_
      | some line =>
        let r := diff3WalkSpecGap mg ch A O B oToB rest (a + 1) (b + 1) (o + 1)
        if na < a ∨ nb < b ∨ no_ < o then
          let fl : FlushT := (rangeList na a, rangeList nb b, rangeList no_ o)
          (process_hunks A B O ch fl.1 fl.2.1 fl.2.2 ++ line :: r.1, fl :: r.2)
        else (line :: r.1, r.2)

/-- The three-way merge engine `diff3(A, O, B, conflict_handler)`: align
ancestor against each side, expand the alignments into dense position
maps, and walk the ancestor.  Returns the merged output and the list of
flushed hunks. -/
def diff3 {α κ : Type} [DecidableEq α] [DecidableEq κ]
    (mg : α → α → α → Option α) (ch : List α → List α → List α → List α)
    (ms : List (α → κ)) (A O B : List α) : List α × List FlushT :=
  let oToA := map_indices (LineMatcher.find_matches ms O A)
  let oToB := map_indices (LineMatcher.find_matches ms O B)
  diff3Walk mg ch A O B oToB oToA 0 0 0

/-- The engine as called for the event and style sections, with the
spec-described any-space flush condition instead of the source's. -/
def diff3SpecGap {α κ : Type} [DecidableEq α] [DecidableEq κ]
    (mg : α → α → α → Option α) (ch : List α → List α → List α → List α)
    (ms : List (α → κ)) (A O B : List α) : List α × List FlushT :=
  let oToA := map_indices (LineMatcher.find_matches ms O A)
  let oToB := map_indices (LineMatcher.find_matches ms O B)
  diff3WalkSpecGap mg ch A O B oToB oToA 0 0 0

/-! ### Association-list lemmas -/

theorem lookupA_mem {κ β : Type} [DecidableEq κ] {l : List (κ × β)} {k : κ}
    {v : β} (h : lookupA l k = some v) : (k, v) ∈ l := by
  induction l with
  | nil => simp [lookupA] at h
  | cons q rest ih =>
    rw [lookupA] at h
    by_cases hq : q.1 = k
    · rw [if_pos hq] at h
      injection h with h
      have hqv : q = (k, v) := Prod.ext_iff.mpr ⟨hq, h⟩
      rw [hqv]
      exact List.mem_cons_self _ _
    · rw [if_neg hq] at h
      exact List.mem_cons_of_mem _ (ih h)

theorem lookupA_eq_none_of_not_mem {κ β : Type} [DecidableEq κ]
    {l : List (κ × β)} {k : κ} (h : ∀ v, (k, v) ∉ l) : lookupA l k = none := by
  induction l with
  | nil => rfl
  | cons q rest ih =>
    have hq : q.1 ≠ k := by
      intro hk
      have hqe : (k, q.2) = q := Prod.ext_iff.mpr ⟨hk.symm, rfl⟩
      have hmem : (k, q.2) ∈ q :: rest := by
        rw [hqe]
        exact List.mem_cons_self _ _
      exact h q.2 hmem
    rw [lookupA, if_neg hq]
    exact ih (fun v hv => h v (List.mem_cons_of_mem _ hv))

theorem lookupA_append {κ β : Type} [DecidableEq κ] (l1 l2 : List (κ × β))
    (k : κ) :
    lookupA (l1 ++ l2) k =
      match lookupA l1 k with
      | some v => some v
      | none => lookupA l2 k := by
  induction l1 with
  | nil => rfl
  | cons q rest ih =>
    rw [List.cons_append, lookupA, lookupA]
    by_cases hq : q.1 = k
    · rw [if_pos hq, if_pos hq]
    · rw [if_neg hq, if_neg hq]
      exact ih

theorem lookupA_map_keep {κ β : Type} [DecidableEq κ] (F : κ × β → κ × β)
    (hF : ∀ fv, (F fv).1 = fv.1) (l : List (κ × β)) (k : κ) :
    lookupA (l.map F) k = (lookupA l k).map (fun v => (F (k, v)).2) := by
  induction l with
  | nil => rfl
  | cons q rest ih =>
    rw [List.map_cons, lookupA, lookupA]
    by_cases hq : q.1 = k
    · rw [if_pos (by rw [hF q]; exact hq), if_pos hq, Option.map_some']
      have hqk : q = (k, q.2) := Prod.ext_iff.mpr ⟨hq, rfl⟩
      show some (F q).2 = some (F (k, q.2)).2
      rw [← hqk]
    · rw [if_neg (by rw [hF q]; exact hq), if_neg hq]
      exact ih

theorem lookupA_filter_none {κ β : Type} [DecidableEq κ] (p : κ × β → Bool)
    (l : List (κ × β)) (k : κ) :
    lookupA l k = none → lookupA (l.filter p) k = none := by
  induction l with
  | nil => intro _; rfl
  | cons q rest ih =>
    intro h
    rw [lookupA] at h
    by_cases hq : q.1 = k
    · rw [if_pos hq] at h
      exact absurd h (by simp)
    · rw [if_neg hq] at h
      rw [List.filter_cons]
      by_cases hpq : p q = true
      · rw [if_pos hpq, lookupA, if_neg hq]
        exact ih h
      · rw [if_neg hpq]
        exact ih h

theorem lookupA_filter_some {κ β : Type} [DecidableEq κ] (p : κ × β → Bool)
    (l : List (κ × β)) (k : κ) (v : β) :
    lookupA l k = some v → p (k, v) = true →
    lookupA (l.filter p) k = some v := by
  induction l with
  | nil => intro h _; simp [lookupA] at h
  | cons q rest ih =>
    intro h hp
    rw [lookupA] at h
    by_cases hq : q.1 = k
    · rw [if_pos hq] at h
      injection h with h
      have hqv : q = (k, v) := Prod.ext_iff.mpr ⟨hq, h⟩
      subst hqv
      rw [List.filter_cons, if_pos hp, lookupA, if_pos rfl]
    · rw [if_neg hq] at h
      rw [List.filter_cons]
      by_cases hpq : p q = true
      · rw [if_pos hpq, lookupA, if_neg hq]
        exact ih h hp
      · rw [if_neg hpq]
        exact ih h hp

theorem lookupA_filter_dropped {κ β : Type} [DecidableEq κ] (p : κ × β → Bool)
    (l : List (κ × β)) (k : κ) (v : β) :
    (l.map Prod.fst).Nodup → lookupA l k = some v → p (k, v) = false →
    lookupA (l.filter p) k = none := by
  induction l with
  | nil => intro _ h _; simp [lookupA] at h
  | cons q rest ih =>
    intro hnd h hp
    have hnd1 : q.1 ∉ rest.map Prod.fst := (List.nodup_cons.mp (by simpa using hnd)).1
    have hnd2 : (rest.map Prod.fst).Nodup := (List.nodup_cons.mp (by simpa using hnd)).2
    rw [lookupA] at h
    by_cases hq : q.1 = k
    · rw [if_pos hq] at h
      injection h with h
      have hqv : q = (k, v) := Prod.ext_iff.mpr ⟨hq, h⟩
      subst hqv
      rw [List.filter_cons, if_neg (by rw [hp]; exact Bool.false_ne_true)]
      apply lookupA_eq_none_of_not_mem
      intro w hw
      exact hnd1 (List.mem_map.mpr ⟨(k, w), (List.mem_filter.mp hw).1, rfl⟩)
    · rw [if_neg hq] at h
      rw [List.filter_cons]
      by_cases hpq : p q = true
      · rw [if_pos hpq, lookupA, if_neg hq]
        exact ih hnd2 h hp
      · rw [if_neg hpq]
        exact ih hnd2 h hp

theorem overrideField_fst (ca cb : RecT) (fv : String × String) :
    (overrideField ca cb fv).1 = fv.1 := by
  unfold overrideField
  cases lookupA cb fv.1 with
  | some w => rfl
  | none =>
    cases lookupA ca fv.1 with
    | some u => rfl
    | none => rfl

theorem overrideField_eval (ca cb : RecT) (f v : String) :
    overrideField ca cb (f, v) =
      match lookupA cb f with
      | some w => (f, w)
      | none =>
        match lookupA ca f with
        | some u => (f, u)
        | none => (f, v) := rfl

theorem changedFields_lookup_none (x parent : RecT) (f : String)
    (h : lookupA x f = none) : lookupA (changedFields x parent) f = none :=
  lookupA_filter_none _ x f h

theorem changedFields_lookup_changed (x parent : RecT) (f v : String)
    (h : lookupA x f = some v) (hne : lookupA parent f ≠ some v) :
    lookupA (changedFields x parent) f = some v :=
  lookupA_filter_some _ x f v h (by simpa using hne)

theorem changedFields_lookup_unchanged (x parent : RecT) (f v : String)
    (hnd : (keysOf x).Nodup) (h : lookupA x f = some v)
    (he : lookupA parent f = some v) :
    lookupA (changedFields x parent) f = none :=
  lookupA_filter_dropped _ x f v (by simpa [keysOf] using hnd) h (by simp [he])

/-! ### Claim theorems: record field merge -/

/-- C1: for every triple of records of one kind, the field-level merge
fails (returns the conflict outcome `none`) whenever some field is changed
relative to the ancestor by both the local and the remote record, even when
both sides changed it to the identical new value. -/
theorem claim_C1_overlap_is_conflict (a parent b : RecT)
    (h : ∃ f va vb, lookupA a f = some va ∧ lookupA b f = some vb ∧
      lookupA parent f ≠ some va ∧ lookupA parent f ≠ some vb) :
    ASSLine.merge a parent b = none := by
  obtain ⟨f, va, vb, hfa, hfb, hpa, hpb⟩ := h
  have hguard : (changedFields a parent).any
      (fun fv => (changedFields b parent).any
        (fun gw => decide (fv.1 = gw.1))) = true := by
    apply List.any_eq_true.mpr
    refine ⟨(f, va), List.mem_filter.mpr ⟨lookupA_mem hfa, by simpa using hpa⟩, ?_⟩
    apply List.any_eq_true.mpr
    exact ⟨(f, vb), List.mem_filter.mpr ⟨lookupA_mem hfb, by simpa using hpb⟩, by simp⟩
  simp only [ASSLine.merge, hguard, if_true]

/-- C1 witness: both sides changed the `Text` field to the identical new
value, and the merge still conflicts. -/
theorem claim_C1_overlap_is_conflict_witness :
    (∃ f va vb,
      lookupA [("Type", "Dialogue"), ("Text", "new")] f = some va ∧
      lookupA [("Type", "Dialogue"), ("Text", "new")] f = some vb ∧
      lookupA [("Type", "Dialogue"), ("Text", "old")] f ≠ some va ∧
      lookupA [("Type", "Dialogue"), ("Text", "old")] f ≠ some vb) ∧
    ASSLine.merge [("Type", "Dialogue"), ("Text", "new")]
      [("Type", "Dialogue"), ("Text", "old")]
      [("Type", "Dialogue"), ("Text", "new")] = none := by
  constructor
  · exact ⟨"Text", "new", "new", by decide, by decide, by decide, by decide⟩
  · exact claim_C1_overlap_is_conflict _ _ _
      ⟨"Text", "new", "new", by decide, by decide, by decide, by decide⟩

/-- C2: when the changed-field sets of the local and remote records
relative to the ancestor are disjoint, the merge succeeds, the result has
the ancestor's field names in order, and each field holds the remote value
when the remote side changed it, else the local value when the local side
changed it, else the ancestor's value: the ancestor's fields overridden by
the local changes and then the remote changes. -/
theorem claim_C2_disjoint_merge (a parent b : RecT)
    (hna : (keysOf a).Nodup) (hnb : (keysOf b).Nodup)
    (hdisj : ∀ fv ∈ a, ∀ gw ∈ b, fv.1 = gw.1 →
      lookupA parent fv.1 = some fv.2 ∨ lookupA parent gw.1 = some gw.2) :
    ∃ r, ASSLine.merge a parent b = some r ∧ keysOf r = keysOf parent ∧
      ∀ f v, lookupA parent f = some v →
        lookupA r f = some (
          match lookupA b f with
          | some w =>
            if w ≠ v then w
            else
              match lookupA a f with
              | some u => if u ≠ v then u else v
              | none => v
          | none =>
            match lookupA a f with
            | some u => if u ≠ v then u else v
            | none => v) := by
  have hguard : (changedFields a parent).any
      (fun fv => (changedFields b parent).any
        (fun gw => decide (fv.1 = gw.1))) = false := by
    rw [Bool.eq_false_iff]
    intro hany
    obtain ⟨fv, hfv, hinner⟩ := List.any_eq_true.mp hany
    obtain ⟨gw, hgw, hkey⟩ := List.any_eq_true.mp hinner
    have hfv' := List.mem_filter.mp hfv
    have hgw' := List.mem_filter.mp hgw
    have hkey' : fv.1 = gw.1 := by simpa using hkey
    rcases hdisj fv hfv'.1 gw hgw'.1 hkey' with hc | hc
    · have h2 : lookupA parent fv.1 ≠ some fv.2 := by simpa using hfv'.2
      exact h2 hc
    · have h2 : lookupA parent gw.1 ≠ some gw.2 := by simpa using hgw'.2
      exact h2 hc
  refine ⟨parent.map (overrideField (changedFields a parent) (changedFields b parent)),
    ?_, ?_, ?_⟩
  · simp only [ASSLine.merge, hguard, Bool.false_eq_true, if_false]
  · unfold keysOf
    rw [List.map_map]
    exact List.map_congr_left (fun fv _ => overrideField_fst _ _ fv)
  · intro f v hpf
    rw [lookupA_map_keep _ (overrideField_fst _ _), hpf, Option.map_some',
      overrideField_eval]
    have hne_of : ∀ u : String, ¬u = v → lookupA parent f ≠ some u := by
      intro u hu h
      rw [hpf] at h
      exact hu (Option.some.inj h).symm
    cases hb : lookupA b f with
    | some w =>
      by_cases hw : w = v
      · rw [changedFields_lookup_unchanged b parent f w hnb hb (by rw [hw]; exact hpf)]
        cases ha : lookupA a f with
        | some u =>
          by_cases hu : u = v
          · rw [changedFields_lookup_unchanged a parent f u hna ha (by rw [hu]; exact hpf)]
            simp [hw, hu]
          · rw [changedFields_lookup_changed a parent f u ha (hne_of u hu)]
            simp [hw, hu]
        | none =>
          rw [changedFields_lookup_none a parent f ha]
          simp [hw]
      · rw [changedFields_lookup_changed b parent f w hb (hne_of w hw)]
        simp [hw]
    | none =>
      rw [changedFields_lookup_none b parent f hb]
      cases ha : lookupA a f with
      | some u =>
        by_cases hu : u = v
        · rw [changedFields_lookup_unchanged a parent f u hna ha (by rw [hu]; exact hpf)]
          simp [hu]
        · rw [changedFields_lookup_changed a parent f u ha (hne_of u hu)]
          simp [hu]
      | none =>
        rw [changedFields_lookup_none a parent f ha]

/-- C2 witness: the spec's example, a dialogue line whose text the local
side edits while the remote side edits its time fields; the merge succeeds
with the local text and the remote times. -/
theorem claim_C2_disjoint_merge_witness :
    ∃ r, ASSLine.merge
        [("Type", "Dialogue"), ("Start", "0:00:00.00"), ("End", "0:00:05.00"),
          ("Text", "new text")]
        [("Type", "Dialogue"), ("Start", "0:00:00.00"), ("End", "0:00:05.00"),
          ("Text", "old text")]
        [("Type", "Dialogue"), ("Start", "0:00:01.00"), ("End", "0:00:06.00"),
          ("Text", "old text")] = some r ∧
      keysOf r = keysOf [("Type", "Dialogue"), ("Start", "0:00:00.00"),
        ("End", "0:00:05.00"), ("Text", "old text")] ∧
      ∀ f v, lookupA [("Type", "Dialogue"), ("Start", "0:00:00.00"),
          ("End", "0:00:05.00"), ("Text", "old text")] f = some v →
        lookupA r f = some (
          match lookupA [("Type", "Dialogue"), ("Start", "0:00:01.00"),
            ("End", "0:00:06.00"), ("Text", "old text")] f with
          | some w =>
            if w ≠ v then w
            else
              match lookupA [("Type", "Dialogue"), ("Start", "0:00:00.00"),
                ("End", "0:00:05.00"), ("Text", "new text")] f with
              | some u => if u ≠ v then u else v
              | none => v
          | none =>
            match lookupA [("Type", "Dialogue"), ("Start", "0:00:00.00"),
              ("End", "0:00:05.00"), ("Text", "new text")] f with
            | some u => if u ≠ v then u else v
            | none => v) :=
  claim_C2_disjoint_merge _ _ _ (by decide) (by decide) (by decide)

/-! ### Ordered-map lemmas for the key/value merge -/

theorem lookupA_eq_none_of_any_false {κ β : Type} [DecidableEq κ]
    {m : List (κ × β)} {k : κ}
    (h : m.any (fun p => decide (p.1 = k)) = false) : lookupA m k = none := by
  apply lookupA_eq_none_of_not_mem
  intro v hv
  rw [Bool.eq_false_iff] at h
  exact h (List.any_eq_true.mpr ⟨(k, v), hv, by simp⟩)

theorem odInsert_lookup_self (m : List (String × String)) (k v : String) :
    lookupA (odInsert m k v) k = some v := by
  unfold odInsert
  by_cases hany : m.any (fun p => decide (p.1 = k)) = true
  · rw [if_pos hany]
    induction m with
    | nil => simp at hany
    | cons q rest ih =>
      rw [List.map_cons, lookupA]
      by_cases hq : q.1 = k
      · rw [if_pos hq]
        rw [if_pos (show ((k, v) : String × String).1 = k from rfl)]
      · rw [if_neg hq]
        rw [List.any_cons] at hany
        have : rest.any (fun p => decide (p.1 = k)) = true := by
          simpa [hq] using hany
        rw [if_neg (by simpa using hq)]
        exact ih this
  · rw [if_neg hany, lookupA_append,
      lookupA_eq_none_of_any_false (Bool.eq_false_iff.mpr hany)]
    rw [lookupA, if_pos rfl]

theorem lookupA_map_overwrite (m : List (String × String)) (k v k2 : String)
    (hne : k2 ≠ k) :
    lookupA (m.map (fun p => if p.1 = k then (k, v) else p)) k2 =
      lookupA m k2 := by
  induction m with
  | nil => rfl
  | cons q rest ih =>
    rw [List.map_cons, lookupA, lookupA]
    by_cases hq : q.1 = k
    · rw [if_pos hq,
        if_neg (show ((k, v) : String × String).1 ≠ k2 from fun h => hne h.symm),
        if_neg (show q.1 ≠ k2 from fun h => hne (h.symm.trans hq))]
      exact ih
    · rw [if_neg hq]
      by_cases hq2 : q.1 = k2
      · rw [if_pos hq2, if_pos hq2]
      · rw [if_neg hq2, if_neg hq2]
        exact ih

theorem odInsert_lookup_other (m : List (String × String)) (k v k2 : String)
    (hne : k2 ≠ k) : lookupA (odInsert m k v) k2 = lookupA m k2 := by
  unfold odInsert
  by_cases hany : m.any (fun p => decide (p.1 = k)) = true
  · rw [if_pos hany]
    exact lookupA_map_overwrite m k v k2 hne
  · rw [if_neg hany, lookupA_append]
    cases h : lookupA m k2 with
    | some w => rfl
    | none => rw [lookupA, if_neg (fun h2 : k = k2 => hne h2.symm)]; rfl

theorem odUpdate_lookup_not_mem (l m : List (String × String)) (k : String)
    (h : ∀ v, (k, v) ∉ l) : lookupA (odUpdate m l) k = lookupA m k := by
  induction l generalizing m with
  | nil => rfl
  | cons q rest ih =>
    have hq : q.1 ≠ k := by
      intro hk
      have hqe : (k, q.2) = q := Prod.ext_iff.mpr ⟨hk.symm, rfl⟩
      have : (k, q.2) ∈ q :: rest := by
        rw [hqe]
        exact List.mem_cons_self _ _
      exact h q.2 this
    unfold odUpdate
    rw [List.foldl_cons]
    have := ih (odInsert m q.1 q.2) (fun v hv => h v (List.mem_cons_of_mem _ hv))
    unfold odUpdate at this
    rw [this]
    exact odInsert_lookup_other m q.1 q.2 k (fun h2 => hq h2.symm)

theorem odUpdate_lookup_mem (l m : List (String × String)) (k v : String)
    (hmem : (k, v) ∈ l) (hnd : (l.map Prod.fst).Nodup) :
    lookupA (odUpdate m l) k = some v := by
  induction l generalizing m with
  | nil => exact absurd hmem (List.not_mem_nil _)
  | cons q rest ih =>
    have hnd1 : q.1 ∉ rest.map Prod.fst := (List.nodup_cons.mp (by simpa using hnd)).1
    have hnd2 : (rest.map Prod.fst).Nodup := (List.nodup_cons.mp (by simpa using hnd)).2
    unfold odUpdate
    rw [List.foldl_cons]
    rcases List.mem_cons.mp hmem with heq | hmemr
    · have hknotin : ∀ w, (k, w) ∉ rest := by
        intro w hw
        apply hnd1
        rw [← heq]
        exact List.mem_map.mpr ⟨(k, w), hw, rfl⟩
      have := odUpdate_lookup_not_mem rest (odInsert m q.1 q.2) k hknotin
      unfold odUpdate at this
      rw [this, ← heq]
      exact odInsert_lookup_self m k v
    · have := ih (odInsert m q.1 q.2) hmemr hnd2
      unfold odUpdate at this
      exact this

theorem keysOf_odInsert_nodup (m : List (String × String)) (k v : String)
    (hnd : (keysOf m).Nodup) : (keysOf (odInsert m k v)).Nodup := by
  unfold odInsert
  by_cases hany : m.any (fun p => decide (p.1 = k)) = true
  · rw [if_pos hany]
    have : keysOf (m.map (fun p => if p.1 = k then (k, v) else p)) = keysOf m := by
      unfold keysOf
      rw [List.map_map]
      apply List.map_congr_left
      intro p _
      by_cases hp : p.1 = k
      · rw [Function.comp_apply, if_pos hp]
        exact hp.symm
      · rw [Function.comp_apply, if_neg hp]
    rw [this]
    exact hnd
  · rw [if_neg hany]
    unfold keysOf
    rw [List.map_append]
    apply List.Nodup.append (by simpa [keysOf] using hnd) (by simp)
    intro x hx hx2
    simp only [List.map_cons, List.map_nil, List.mem_singleton] at hx2
    subst hx2
    obtain ⟨p, hp, hpk⟩ := List.mem_map.mp hx
    exact hany (List.any_eq_true.mpr ⟨p, hp, by simpa using hpk⟩)

theorem lines_to_map_keys_nodup (lines : List (String × String)) :
    (keysOf (lines_to_map lines)).Nodup := by
  have aux : ∀ (ls : List (String × String)) (m : List (String × String)),
      (keysOf m).Nodup →
      (keysOf (ls.foldl (fun m p => odInsert m p.1 p.2) m)).Nodup := by
    intro ls
    induction ls with
    | nil => intro m h; exact h
    | cons q rest ih =>
      intro m h
      rw [List.foldl_cons]
      exact ih _ (keysOf_odInsert_nodup m q.1 q.2 h)
  exact aux lines [] (by simp [keysOf])

theorem keysOf_filter_nodup (m : List (String × String))
    (p : String × String → Bool) (hnd : (keysOf m).Nodup) :
    (keysOf (m.filter p)).Nodup := by
  unfold keysOf
  exact List.Nodup.sublist (List.Sublist.map _ (List.filter_sublist m))
    (by simpa [keysOf] using hnd)

/-! ### Claim theorem: key/value section merge -/

/-- C8: in the key/value section merge, a key changed by both sides to
different values relative to the ancestor ends up with the preferred
side's value: the local value when `ours` precedence is selected, the
remote value otherwise. -/
theorem claim_C8_keyval_preferred_wins (ours : Bool)
    (A O B : List (String × String)) (k va vb : String)
    (ha : lookupA (lines_to_map A) k = some va)
    (hb : lookupA (lines_to_map B) k = some vb)
    (_hab : va ≠ vb)
    (hoa : lookupA (lines_to_map O) k ≠ some va)
    (hob : lookupA (lines_to_map O) k ≠ some vb) :
    lookupA (merge_keyval ours A O B) k = some (if ours then va else vb) := by
  have hmema : (k, va) ∈ (lines_to_map A).filter
      (fun kv => decide (lookupA (lines_to_map O) kv.1 ≠ some kv.2)) :=
    List.mem_filter.mpr ⟨lookupA_mem ha, by simpa using hoa⟩
  have hmemb : (k, vb) ∈ (lines_to_map B).filter
      (fun kv => decide (lookupA (lines_to_map O) kv.1 ≠ some kv.2)) :=
    List.mem_filter.mpr ⟨lookupA_mem hb, by simpa using hob⟩
  have hnda : ((((lines_to_map A).filter
      (fun kv => decide (lookupA (lines_to_map O) kv.1 ≠ some kv.2))).map
        Prod.fst)).Nodup := by
    have := keysOf_filter_nodup (lines_to_map A)
      (fun kv => decide (lookupA (lines_to_map O) kv.1 ≠ some kv.2))
      (lines_to_map_keys_nodup A)
    simpa [keysOf] using this
  have hndb : ((((lines_to_map B).filter
      (fun kv => decide (lookupA (lines_to_map O) kv.1 ≠ some kv.2))).map
        Prod.fst)).Nodup := by
    have := keysOf_filter_nodup (lines_to_map B)
      (fun kv => decide (lookupA (lines_to_map O) kv.1 ≠ some kv.2))
      (lines_to_map_keys_nodup B)
    simpa [keysOf] using this
  cases ours with
  | false =>
    simp only [merge_keyval, Bool.false_eq_true, if_false, if_true]
    exact odUpdate_lookup_mem _ _ k vb hmemb hndb
  | true =>
    simp only [merge_keyval, if_true]
    exact odUpdate_lookup_mem _ _ k va hmema hnda

/-- C8 witness: a concrete per-key collision where both sides rewrite the
same key differently; the preferred (local) side's value survives. -/
theorem claim_C8_keyval_preferred_wins_witness :
    lookupA (merge_keyval true [("WrapStyle", "2")] [("WrapStyle", "0")]
      [("WrapStyle", "3")]) "WrapStyle" = some (if true then "2" else "3") :=
  claim_C8_keyval_preferred_wins true [("WrapStyle", "2")] [("WrapStyle", "0")]
    [("WrapStyle", "3")] "WrapStyle" "2" "3" (by decide) (by decide)
    (by decide) (by decide) (by decide)

/-! ### Hunk classification lemmas -/

theorem hunks_equal_iff {α : Type} [DecidableEq α] (l1 l2 : List α) :
    ∀ h1 h2, (∀ i ∈ h1, i < l1.length) → (∀ j ∈ h2, j < l2.length) →
    (hunks_equal l1 h1 l2 h2 = true ↔ sliceOf l1 h1 = sliceOf l2 h2) := by
  intro h1
  induction h1 with
  | nil =>
    intro h2 _ hb2
    cases h2 with
    | nil => simp [hunks_equal, sliceOf]
    | cons j t2 =>
      have hy := List.getElem?_eq_getElem (hb2 j (List.mem_cons_self _ _))
      simp [hunks_equal, sliceOf, List.filterMap_cons, hy]
  | cons i t1 ih =>
    intro h2 hb1 hb2
    have hx := List.getElem?_eq_getElem (hb1 i (List.mem_cons_self _ _))
    cases h2 with
    | nil => simp [hunks_equal, sliceOf, List.filterMap_cons, hx]
    | cons j t2 =>
      have hy := List.getElem?_eq_getElem (hb2 j (List.mem_cons_self _ _))
      have ihspec := ih t2 (fun i2 hi => hb1 i2 (List.mem_cons_of_mem _ hi))
        (fun j2 hj => hb2 j2 (List.mem_cons_of_mem _ hj))
      simp only [hunks_equal, Bool.and_eq_true, decide_eq_true_eq,
        List.all_eq_true, sliceOf, List.get?_eq_getElem?] at ihspec
      simp only [hunks_equal, List.length_cons, List.zip_cons_cons,
        List.all_cons, Bool.and_eq_true, decide_eq_true_eq, List.all_eq_true,
        sliceOf, List.filterMap_cons, List.get?_eq_getElem?, hx, hy,
        Option.some.injEq, List.cons.injEq]
      constructor
      · intro h
        obtain ⟨hlen, hij, hrest⟩ := h
        exact ⟨hij, ihspec.mp ⟨Nat.add_right_cancel hlen, hrest⟩⟩
      · intro h
        have h2 := ihspec.mpr h.2
        exact ⟨by rw [h2.1], h.1, h2.2⟩

/-! ### Claim theorem: hunk classification -/

/-- C3: the classification performed by `process_hunks` on one hunk: a
side that alone changed is emitted unchanged; content-identical sides emit
the local range (taking effect before the both-changed fallback); and only
when both sides changed differently is the conflict handler's output
yielded verbatim. -/
theorem claim_C3_hunk_classification {α : Type} [DecidableEq α]
    (A B O : List α) (ch : List α → List α → List α → List α)
    (ah bh oh : List ℕ)
    (hbA : ∀ i ∈ ah, i < A.length) (hbB : ∀ i ∈ bh, i < B.length)
    (hbO : ∀ i ∈ oh, i < O.length) :
    (sliceOf A ah ≠ sliceOf O oh → sliceOf B bh = sliceOf O oh →
      process_hunks A B O ch ah bh oh = sliceOf A ah) ∧
    (sliceOf B bh ≠ sliceOf O oh → sliceOf A ah = sliceOf O oh →
      process_hunks A B O ch ah bh oh = sliceOf B bh) ∧
    (sliceOf A ah = sliceOf B bh →
      process_hunks A B O ch ah bh oh = sliceOf A ah) ∧
    (sliceOf A ah ≠ sliceOf B bh → sliceOf A ah ≠ sliceOf O oh →
      sliceOf B bh ≠ sliceOf O oh →
      process_hunks A B O ch ah bh oh =
        ch (sliceOf A ah) (sliceOf B bh) (sliceOf O oh)) := by
  have eAO := hunks_equal_iff A O ah oh hbA hbO
  have eBO := hunks_equal_iff B O bh oh hbB hbO
  have eAB := hunks_equal_iff A B ah bh hbA hbB
  refine ⟨?_, ?_, ?_, ?_⟩
  · intro hA hB
    have h1 : hunks_equal A ah O oh = false :=
      Bool.eq_false_iff.mpr (fun h => hA (eAO.mp h))
    have h2 : hunks_equal B bh O oh = true := eBO.mpr hB
    have h3 : hunks_equal A ah B bh = false :=
      Bool.eq_false_iff.mpr (fun h => hA (by rw [eAB.mp h]; exact hB))
    simp [process_hunks, classify_hunk, h1, h2, h3]
  · intro hB hA
    have h1 : hunks_equal A ah O oh = true := eAO.mpr hA
    have h2 : hunks_equal B bh O oh = false :=
      Bool.eq_false_iff.mpr (fun h => hB (eBO.mp h))
    have h3 : hunks_equal A ah B bh = false :=
      Bool.eq_false_iff.mpr (fun h => hB (by rw [← (eAB.mp h)]; exact hA))
    simp [process_hunks, classify_hunk, h1, h2, h3]
  · intro hAB
    have h3 : hunks_equal A ah B bh = true := eAB.mpr hAB
    simp [process_hunks, classify_hunk, h3]
  · intro hAB hA hB
    have h1 : hunks_equal A ah O oh = false :=
      Bool.eq_false_iff.mpr (fun h => hA (eAO.mp h))
    have h2 : hunks_equal B bh O oh = false :=
      Bool.eq_false_iff.mpr (fun h => hB (eBO.mp h))
    have h3 : hunks_equal A ah B bh = false :=
      Bool.eq_false_iff.mpr (fun h => hAB (eAB.mp h))
    simp [process_hunks, classify_hunk, h1, h2, h3]

/-- C3 witness: a hunk where only the local side changed is emitted as the
local slice. -/
theorem claim_C3_hunk_classification_witness :
    process_hunks [1, 2] [1] [1] (fun a b o => a ++ b ++ o) [0, 1] [0] [0] =
      sliceOf [1, 2] [0, 1] :=
  (claim_C3_hunk_classification [1, 2] [1] [1] (fun a b o => a ++ b ++ o)
    [0, 1] [0] [0] (by decide) (by decide) (by decide)).1
    (by decide) (by decide)

/-! ### Sequence matcher: bounds of the longest-run search -/

theorem mem_of_mem_takeWhile {α : Type} (p : α → Bool) :
    ∀ (l : List α) (x : α), x ∈ l.takeWhile p → x ∈ l ∧ p x = true := by
  intro l
  induction l with
  | nil =>
    intro x hx
    exact absurd hx (List.not_mem_nil x)
  | cons y t ih =>
    intro x hx
    rw [List.takeWhile_cons] at hx
    by_cases hy : p y = true
    · rw [if_pos hy] at hx
      rcases List.mem_cons.mp hx with h | h
      · subst h
        exact ⟨List.mem_cons_self _ _, hy⟩
      · obtain ⟨h1, h2⟩ := ih x h
        exact ⟨List.mem_cons_of_mem _ h1, h2⟩
    · rw [if_neg hy] at hx
      exact absurd hx (List.not_mem_nil x)

theorem lcsCandidates_bounds {α κ : Type} [DecidableEq κ] (ms : List (α → κ))
    (a b : List α) (bi bj i : ℕ) :
    ∀ j ∈ lcsCandidates ms a b bi bj i, bi ≤ j ∧ j < bj := by
  intro j hj
  unfold lcsCandidates at hj
  cases hx : a.get? i with
  | none =>
    rw [hx] at hj
    exact absurd hj (List.not_mem_nil j)
  | some x =>
    rw [hx] at hj
    obtain ⟨hmf, hlt⟩ := mem_of_mem_takeWhile _ _ _ hj
    refine ⟨?_, by simpa using hlt⟩
    have := (List.mem_filter.mp hmf).2
    simpa [natLe] using this

theorem lcsRowStep_ok (prev : ℕ → ℕ) (i ai bi bj : ℕ) (hai : ai ≤ i)
    (hprev : rowInv bi bj (i - ai) prev)
    (acc : (ℕ → ℕ) × (ℕ × ℕ × ℕ)) (j : ℕ) (hj : bi ≤ j ∧ j < bj)
    (hacc : rowInv bi bj (i + 1 - ai) acc.1 ∧ stInv ai bi bj (i + 1) acc.2) :
    rowInv bi bj (i + 1 - ai) (lcsRowStep prev i acc j).1 ∧
      stInv ai bi bj (i + 1) (lcsRowStep prev i acc j).2 := by
  obtain ⟨hrow, hst⟩ := hacc
  have h0 : 0 < prevLen prev j + 1 := Nat.succ_pos _
  have hlenb : prevLen prev j + 1 ≤ j + 1 - bi ∧
      prevLen prev j + 1 ≤ i + 1 - ai := by
    cases j with
    | zero =>
      simp only [prevLen]
      omega
    | succ j' =>
      simp only [prevLen]
      by_cases hp : prev j' = 0
      · rw [hp]
        omega
      · obtain ⟨h1, h2, h3, h4⟩ := hprev j' hp
        omega
  simp only [lcsRowStep]
  generalize hg : prevLen prev j + 1 = len at h0 hlenb ⊢
  have hrow2 : rowInv bi bj (i + 1 - ai)
      (fun j2 => if j2 = j then len else acc.1 j2) := by
    intro j2 hne
    dsimp only at hne ⊢
    by_cases hj2 : j2 = j
    · rw [if_pos hj2]
      rw [hj2]
      exact ⟨hj.1, hj.2, hlenb.1, hlenb.2⟩
    · rw [if_neg hj2] at hne ⊢
      exact hrow j2 hne
  by_cases hcmp : acc.2.1 < len
  · rw [if_pos hcmp]
    refine ⟨hrow2, ?_⟩
    unfold stInv
    dsimp only
    constructor
    · intro h
      omega
    · intro _
      omega
  · rw [if_neg hcmp]
    exact ⟨hrow2, hst⟩

theorem lcsRow_ok (prev : ℕ → ℕ) (i ai bi bj : ℕ) (hai : ai ≤ i)
    (hprev : rowInv bi bj (i - ai) prev) (js : List ℕ)
    (hjs : ∀ j ∈ js, bi ≤ j ∧ j < bj) (st : ℕ × ℕ × ℕ)
    (hst : stInv ai bi bj i st) :
    rowInv bi bj (i + 1 - ai) (lcsRow prev i js st).1 ∧
      stInv ai bi bj (i + 1) (lcsRow prev i js st).2 := by
  have hst1 : stInv ai bi bj (i + 1) st := by
    obtain ⟨hz, hp⟩ := hst
    refine ⟨hz, fun h => ?_⟩
    obtain ⟨h1, h2, h3, h4⟩ := hp h
    exact ⟨h1, by omega, h3, h4⟩
  have aux : ∀ (l : List ℕ) (acc : (ℕ → ℕ) × (ℕ × ℕ × ℕ)),
      (∀ j ∈ l, bi ≤ j ∧ j < bj) →
      rowInv bi bj (i + 1 - ai) acc.1 → stInv ai bi bj (i + 1) acc.2 →
      rowInv bi bj (i + 1 - ai) (l.foldl (lcsRowStep prev i) acc).1 ∧
        stInv ai bi bj (i + 1) (l.foldl (lcsRowStep prev i) acc).2 := by
    intro l
    induction l with
    | nil =>
      intro acc _ h1 h2
      exact ⟨h1, h2⟩
    | cons j t ih =>
      intro acc hl h1 h2
      rw [List.foldl_cons]
      have hstep := lcsRowStep_ok prev i ai bi bj hai hprev acc j
        (hl j (List.mem_cons_self _ _)) ⟨h1, h2⟩
      exact ih _ (fun x hx => hl x (List.mem_cons_of_mem _ hx)) hstep.1 hstep.2
  exact aux js ((fun _ => 0), st) hjs (fun j hne => absurd rfl hne) hst1

theorem lcs_fold_ok {α κ : Type} [DecidableEq κ] (ms : List (α → κ))
    (a b : List α) (ai bi bj : ℕ) :
    ∀ (n i0 : ℕ) (acc : (ℕ → ℕ) × (ℕ × ℕ × ℕ)), ai ≤ i0 →
    rowInv bi bj (i0 - ai) acc.1 → stInv ai bi bj i0 acc.2 →
    stInv ai bi bj (i0 + n)
      ((List.range' i0 n).foldl (lcsOuterStep ms a b bi bj) acc).2 := by
  intro n
  induction n with
  | zero =>
    intro i0 acc _ _ hst
    simpa using hst
  | succ n ih =>
    intro i0 acc hai hrow hst
    rw [List.range'_succ, List.foldl_cons]
    have hstep := lcsRow_ok acc.1 i0 ai bi bj hai hrow
      (lcsCandidates ms a b bi bj i0) (lcsCandidates_bounds ms a b bi bj i0)
      acc.2 hst
    have := ih (i0 + 1) (lcsOuterStep ms a b bi bj acc i0) (by omega)
      (by simpa [lcsOuterStep] using hstep.1)
      (by simpa [lcsOuterStep] using hstep.2)
    have harith : i0 + 1 + n = i0 + (n + 1) := by omega
    rw [harith] at this
    exact this

theorem lcs_bounds {α κ : Type} [DecidableEq κ] (ms : List (α → κ))
    (a b : List α) (ai aj bi bj : ℕ) :
    ((LineMatcher.lcs ms a b ai aj bi bj).2.2 = 0 →
      (LineMatcher.lcs ms a b ai aj bi bj).1 = ai ∧
      (LineMatcher.lcs ms a b ai aj bi bj).2.1 = bi) ∧
    (0 < (LineMatcher.lcs ms a b ai aj bi bj).2.2 →
      ai ≤ (LineMatcher.lcs ms a b ai aj bi bj).1 ∧
      (LineMatcher.lcs ms a b ai aj bi bj).1 +
        (LineMatcher.lcs ms a b ai aj bi bj).2.2 ≤ aj ∧
      bi ≤ (LineMatcher.lcs ms a b ai aj bi bj).2.1 ∧
      (LineMatcher.lcs ms a b ai aj bi bj).2.1 +
        (LineMatcher.lcs ms a b ai aj bi bj).2.2 ≤ bj) := by
  have hinit : stInv ai bi bj ai ((0 : ℕ), ai, bi) := by
    constructor
    · intro _
      exact ⟨rfl, rfl⟩
    · intro h
      exact absurd h (by omega)
  have hfold := lcs_fold_ok ms a b ai bi bj (aj - ai) ai
    ((fun _ => 0), (0, ai, bi)) (le_refl ai) (fun j hne => absurd rfl hne) hinit
  simp only [LineMatcher.lcs]
  by_cases hle : ai ≤ aj
  · have : ai + (aj - ai) = aj := by omega
    rw [this] at hfold
    obtain ⟨hz, hp⟩ := hfold
    constructor
    · intro h
      exact hz h
    · intro h
      exact hp h
  · have hzero : aj - ai = 0 := by omega
    rw [hzero] at hfold ⊢
    obtain ⟨hz, hp⟩ := hfold
    constructor
    · intro h
      exact hz h
    · intro h
      obtain ⟨h1, h2, h3, h4⟩ := hp h
      refine ⟨h1, ?_, h3, h4⟩
      simp only [List.range'] at h2 ⊢
      omega

/-! ### Sequence matcher: termination of the worklist loop -/

theorem findMatchesGo_nil {α κ : Type} [DecidableEq κ] (ms : List (α → κ))
    (a b : List α) : ∀ (fuel : ℕ) (acc : List MatchT),
    findMatchesGo ms a b fuel [] acc = acc := by
  intro fuel acc
  cases fuel with
  | zero => rfl
  | succ n => rfl

theorem queueMeasure_cons (w : Window) (q : List Window) :
    queueMeasure (w :: q) = 2 * winSize w + 1 + queueMeasure q := by
  simp only [queueMeasure, List.map_cons, List.sum_cons, List.length_cons]
  ring

theorem queueMeasure_append2 (q : List Window) (w1 w2 : Window) :
    queueMeasure (q ++ [w1, w2]) =
      queueMeasure q + 2 * winSize w1 + 2 * winSize w2 + 2 := by
  simp only [queueMeasure, List.map_append, List.sum_append, List.length_append,
    List.map_cons, List.map_nil, List.sum_cons, List.sum_nil, List.length_cons,
    List.length_nil]
  ring

theorem findMatchesGo_add {α κ : Type} [DecidableEq κ] (ms : List (α → κ))
    (a b : List α) : ∀ (n : ℕ) (q : List Window) (acc : List MatchT) (k : ℕ),
    queueMeasure q ≤ n →
    findMatchesGo ms a b (n + k) q acc = findMatchesGo ms a b n q acc := by
  intro n
  induction n with
  | zero =>
    intro q acc k h
    have hq : q = [] := by
      cases q with
      | nil => rfl
      | cons w t =>
        exfalso
        have := queueMeasure_cons w t
        omega
    subst hq
    rw [findMatchesGo_nil, findMatchesGo_nil]
  | succ n ih =>
    intro q acc k h
    cases q with
    | nil => rw [findMatchesGo_nil, findMatchesGo_nil]
    | cons w t =>
      obtain ⟨ai, aj, bi, bj⟩ := w
      have hmc := queueMeasure_cons (ai, aj, bi, bj) t
      have hsucc : n + 1 + k = (n + k) + 1 := by omega
      rw [hsucc]
      simp only [findMatchesGo]
      by_cases hskip : aj - ai ≤ 0 ∨ bj - bi ≤ 0
      · rw [if_pos hskip, if_pos hskip]
        apply ih
        omega
      · rw [if_neg hskip, if_neg hskip]
        by_cases hm : 0 < (LineMatcher.lcs ms a b ai aj bi bj).2.2
        · rw [if_pos hm, if_pos hm]
          apply ih
          obtain ⟨h1, h2, h3, h4⟩ := (lcs_bounds ms a b ai aj bi bj).2 hm
          have happ := queueMeasure_append2 t
            (ai, (LineMatcher.lcs ms a b ai aj bi bj).1, bi,
              (LineMatcher.lcs ms a b ai aj bi bj).2.1)
            ((LineMatcher.lcs ms a b ai aj bi bj).1 +
              (LineMatcher.lcs ms a b ai aj bi bj).2.2, aj,
             (LineMatcher.lcs ms a b ai aj bi bj).2.1 +
              (LineMatcher.lcs ms a b ai aj bi bj).2.2, bj)
          have hw0 : winSize (ai, aj, bi, bj) = (aj - ai) + (bj - bi) := rfl
          have hw1 : winSize (ai, (LineMatcher.lcs ms a b ai aj bi bj).1, bi,
              (LineMatcher.lcs ms a b ai aj bi bj).2.1) =
              ((LineMatcher.lcs ms a b ai aj bi bj).1 - ai) +
              ((LineMatcher.lcs ms a b ai aj bi bj).2.1 - bi) := rfl
          have hw2 : winSize ((LineMatcher.lcs ms a b ai aj bi bj).1 +
              (LineMatcher.lcs ms a b ai aj bi bj).2.2, aj,
              (LineMatcher.lcs ms a b ai aj bi bj).2.1 +
              (LineMatcher.lcs ms a b ai aj bi bj).2.2, bj) =
              (aj - ((LineMatcher.lcs ms a b ai aj bi bj).1 +
                (LineMatcher.lcs ms a b ai aj bi bj).2.2)) +
              (bj - ((LineMatcher.lcs ms a b ai aj bi bj).2.1 +
                (LineMatcher.lcs ms a b ai aj bi bj).2.2)) := rfl
          omega
        · rw [if_neg hm, if_neg hm]
          apply ih
          omega

/-! ### Claim theorem: matcher termination -/

/-- C9: the divide-and-conquer search terminates on every input: adding
fuel beyond the standard budget never changes the collected matches (the
worklist loop has already finished within the budget), and a popped window
that yields a nonempty run produces two sub-windows each strictly smaller
than it. -/
theorem claim_C9_matcher_terminates {α κ : Type} [DecidableEq κ]
    (ms : List (α → κ)) (a b : List α) :
    (∀ extra : ℕ,
      findMatchesGo ms a b (matcherFuel a b + extra)
        [(0, a.length, 0, b.length)] [] =
      findMatchesGo ms a b (matcherFuel a b)
        [(0, a.length, 0, b.length)] []) ∧
    (∀ ai aj bi bj : ℕ, ¬(aj - ai ≤ 0 ∨ bj - bi ≤ 0) →
      0 < (LineMatcher.lcs ms a b ai aj bi bj).2.2 →
      winSize (ai, (LineMatcher.lcs ms a b ai aj bi bj).1, bi,
        (LineMatcher.lcs ms a b ai aj bi bj).2.1) <
        winSize (ai, aj, bi, bj) ∧
      winSize ((LineMatcher.lcs ms a b ai aj bi bj).1 +
          (LineMatcher.lcs ms a b ai aj bi bj).2.2, aj,
          (LineMatcher.lcs ms a b ai aj bi bj).2.1 +
          (LineMatcher.lcs ms a b ai aj bi bj).2.2, bj) <
        winSize (ai, aj, bi, bj)) := by
  constructor
  · intro extra
    have hbase : queueMeasure [(0, a.length, 0, b.length)] ≤ matcherFuel a b := by
      have hc := queueMeasure_cons (0, a.length, 0, b.length) []
      have hnil : queueMeasure ([] : List Window) = 0 := rfl
      have hw : winSize (0, a.length, 0, b.length) = a.length + b.length := by
        simp [winSize]
      simp only [matcherFuel]
      omega
    have h1 := findMatchesGo_add ms a b (matcherFuel a b)
      [(0, a.length, 0, b.length)] [] extra hbase
    exact h1
  · intro ai aj bi bj hskip hm
    obtain ⟨h1, h2, h3, h4⟩ := (lcs_bounds ms a b ai aj bi bj).2 hm
    have hw0 : winSize (ai, aj, bi, bj) = (aj - ai) + (bj - bi) := rfl
    have hw1 : winSize (ai, (LineMatcher.lcs ms a b ai aj bi bj).1, bi,
        (LineMatcher.lcs ms a b ai aj bi bj).2.1) =
        ((LineMatcher.lcs ms a b ai aj bi bj).1 - ai) +
        ((LineMatcher.lcs ms a b ai aj bi bj).2.1 - bi) := rfl
    have hw2 : winSize ((LineMatcher.lcs ms a b ai aj bi bj).1 +
        (LineMatcher.lcs ms a b ai aj bi bj).2.2, aj,
        (LineMatcher.lcs ms a b ai aj bi bj).2.1 +
        (LineMatcher.lcs ms a b ai aj bi bj).2.2, bj) =
        (aj - ((LineMatcher.lcs ms a b ai aj bi bj).1 +
          (LineMatcher.lcs ms a b ai aj bi bj).2.2)) +
        (bj - ((LineMatcher.lcs ms a b ai aj bi bj).2.1 +
          (LineMatcher.lcs ms a b ai aj bi bj).2.2)) := rfl
    constructor
    · omega
    · omega

/-- C9 witness: on a one-record pair the full window yields the run
`(0, 0, 1)` and both sub-windows are strictly smaller; extra fuel does not
change the result. -/
theorem claim_C9_matcher_terminates_witness :
    (findMatchesGo [fun x : ℕ => x] [0] [0] (matcherFuel [0] [0] + 1)
      [(0, 1, 0, 1)] [] =
     findMatchesGo [fun x : ℕ => x] [0] [0] (matcherFuel [0] [0])
      [(0, 1, 0, 1)] []) ∧
    (winSize (0, (LineMatcher.lcs [fun x : ℕ => x] [0] [0] 0 1 0 1).1, 0,
        (LineMatcher.lcs [fun x : ℕ => x] [0] [0] 0 1 0 1).2.1) <
      winSize (0, 1, 0, 1) ∧
     winSize ((LineMatcher.lcs [fun x : ℕ => x] [0] [0] 0 1 0 1).1 +
        (LineMatcher.lcs [fun x : ℕ => x] [0] [0] 0 1 0 1).2.2, 1,
        (LineMatcher.lcs [fun x : ℕ => x] [0] [0] 0 1 0 1).2.1 +
        (LineMatcher.lcs [fun x : ℕ => x] [0] [0] 0 1 0 1).2.2, 1) <
      winSize (0, 1, 0, 1)) := by
  constructor
  · exact (claim_C9_matcher_terminates [fun x : ℕ => x] [0] [0]).1 1
  · exact (claim_C9_matcher_terminates [fun x : ℕ => x] [0] [0]).2 0 1 0 1
      (by decide) (by decide)

/-! ### Sorting lemmas -/

theorem insertLe_perm {α : Type} (le : α → α → Bool) (x : α) :
    ∀ l : List α, (insertLe le x l).Perm (x :: l) := by
  intro l
  induction l with
  | nil => exact List.Perm.refl _
  | cons y t ih =>
    rw [insertLe]
    by_cases h : le x y = true
    · rw [if_pos h]
    · rw [if_neg h]
      exact (ih.cons y).trans (List.Perm.swap x y t)

theorem sortLe_perm {α : Type} (le : α → α → Bool) :
    ∀ l : List α, (sortLe le l).Perm l := by
  intro l
  induction l with
  | nil => exact List.Perm.refl _
  | cons x t ih =>
    rw [sortLe]
    exact (insertLe_perm le x (sortLe le t)).trans (ih.cons x)

theorem insertLe_pairwise {α : Type} (le : α → α → Bool)
    (htrans : ∀ u v w, le u v = true → le v w = true → le u w = true)
    (htotal : ∀ u v, le u v = true ∨ le v u = true) (x : α) :
    ∀ l : List α, List.Pairwise (fun u v => le u v = true) l →
    List.Pairwise (fun u v => le u v = true) (insertLe le x l) := by
  intro l
  induction l with
  | nil =>
    intro _
    exact List.pairwise_singleton _ _
  | cons y t ih =>
    intro hp
    obtain ⟨hy, ht⟩ := List.pairwise_cons.mp hp
    rw [insertLe]
    by_cases h : le x y = true
    · rw [if_pos h]
      refine List.pairwise_cons.mpr ⟨?_, hp⟩
      intro z hz
      rcases List.mem_cons.mp hz with rfl | hzt
      · exact h
      · exact htrans x y z h (hy z hzt)
    · rw [if_neg h]
      have hyx : le y x = true := (htotal x y).resolve_left h
      refine List.pairwise_cons.mpr ⟨?_, ih ht⟩
      intro z hz
      have hz2 : z ∈ x :: t := (insertLe_perm le x t).mem_iff.mp hz
      rcases List.mem_cons.mp hz2 with rfl | hzt
      · exact hyx
      · exact hy z hzt

theorem sortLe_pairwise {α : Type} (le : α → α → Bool)
    (htrans : ∀ u v w, le u v = true → le v w = true → le u w = true)
    (htotal : ∀ u v, le u v = true ∨ le v u = true) :
    ∀ l : List α, List.Pairwise (fun u v => le u v = true) (sortLe le l) := by
  intro l
  induction l with
  | nil => exact List.Pairwise.nil
  | cons x t ih =>
    rw [sortLe]
    exact insertLe_pairwise le htrans htotal x _ ih

theorem tripLe_trans (u v w : MatchT) (h1 : tripLe u v = true)
    (h2 : tripLe v w = true) : tripLe u w = true := by
  simp only [tripLe, Bool.or_eq_true, Bool.and_eq_true, decide_eq_true_eq]
    at h1 h2 ⊢
  omega

theorem tripLe_total (u v : MatchT) : tripLe u v = true ∨ tripLe v u = true := by
  simp only [tripLe, Bool.or_eq_true, Bool.and_eq_true, decide_eq_true_eq]
  omega

/-! ### The worklist invariant of the matcher -/

theorem itemCompat_symm {x y : Window ⊕ MatchT} (h : itemCompat x y) :
    itemCompat y x := h.symm

theorem newItemsCompat (ai aj bi bj sa sb len : ℕ) (hlen : 0 < len)
    (hb1 : ai ≤ sa) (hb2 : sa + len ≤ aj) (hb3 : bi ≤ sb) (hb4 : sb + len ≤ bj)
    (x : Window ⊕ MatchT) (hx : itemCompat (Sum.inl (ai, aj, bi, bj)) x) :
    itemCompat x (Sum.inl (ai, sa, bi, sb)) ∧
    itemCompat x (Sum.inl (sa + len, aj, sb + len, bj)) ∧
    itemCompat x (Sum.inr (sa, sb, len)) := by
  cases x with
  | inl w' =>
    simp only [itemCompat, itemLe] at hx ⊢
    omega
  | inr m' =>
    simp only [itemCompat, itemLe] at hx ⊢
    omega

theorem newItemCompatZero (ai aj bi bj : ℕ) (hai : ai < aj) (hbi : bi < bj)
    (x : Window ⊕ MatchT) (hx : itemCompat (Sum.inl (ai, aj, bi, bj)) x) :
    itemCompat x (Sum.inr (ai, bi, 0)) := by
  cases x with
  | inl w' =>
    simp only [itemCompat, itemLe] at hx ⊢
    omega
  | inr m' =>
    simp only [itemCompat, itemLe] at hx ⊢
    omega

theorem findMatchesGo_inv {α κ : Type} [DecidableEq κ] (ms : List (α → κ))
    (a b : List α) :
    ∀ (fuel : ℕ) (q : List Window) (acc : List MatchT),
    matcherInv a.length b.length q acc →
    (∀ m ∈ findMatchesGo ms a b fuel q acc, matchWF a.length b.length m) ∧
    List.Pairwise itemCompat
      ((findMatchesGo ms a b fuel q acc).map Sum.inr) := by
  intro fuel
  induction fuel with
  | zero =>
    intro q acc hinv
    have hgo : findMatchesGo ms a b 0 q acc = acc := rfl
    rw [hgo]
    refine ⟨hinv.2.1, ?_⟩
    have := (List.pairwise_append.mp hinv.2.2).2.1
    exact this
  | succ fuel ih =>
    intro q acc hinv
    cases q with
    | nil =>
      rw [findMatchesGo_nil]
      refine ⟨hinv.2.1, ?_⟩
      have := (List.pairwise_append.mp hinv.2.2).2.1
      exact this
    | cons w t =>
      obtain ⟨ai, aj, bi, bj⟩ := w
      obtain ⟨hqWF, haccWF, hpw⟩ := hinv
      have hpw' : List.Pairwise itemCompat
          (Sum.inl (ai, aj, bi, bj) :: (t.map Sum.inl ++ acc.map Sum.inr)) := by
        simpa using hpw
      obtain ⟨hwAll, hrest⟩ := List.pairwise_cons.mp hpw'
      simp only [findMatchesGo]
      by_cases hskip : aj - ai ≤ 0 ∨ bj - bi ≤ 0
      · rw [if_pos hskip]
        exact ih t acc ⟨fun w2 hw2 => hqWF w2 (List.mem_cons_of_mem _ hw2),
          haccWF, hrest⟩
      · rw [if_neg hskip]
        have hWFw := hqWF _ (List.mem_cons_self _ _)
        simp only [winWF] at hWFw
        obtain ⟨hw1, hw2, hw3, hw4⟩ := hWFw
        have hbounds := lcs_bounds ms a b ai aj bi bj
        rcases hL : LineMatcher.lcs ms a b ai aj bi bj with ⟨sa, sb, len⟩
        rw [hL] at hbounds
        dsimp only at hbounds ⊢
        by_cases hm : 0 < len
        · rw [if_pos hm]
          obtain ⟨hb1, hb2, hb3, hb4⟩ := hbounds.2 hm
          have hnew : ∀ x ∈ t.map Sum.inl ++ acc.map Sum.inr,
              itemCompat x (Sum.inl (ai, sa, bi, sb)) ∧
              itemCompat x (Sum.inl (sa + len, aj, sb + len, bj)) ∧
              itemCompat x (Sum.inr (sa, sb, len)) :=
            fun x hx => newItemsCompat ai aj bi bj sa sb len hm hb1 hb2 hb3 hb4
              x (hwAll x hx)
          apply ih
          refine ⟨?_, ?_, ?_⟩
          · intro w2 hw2
            rcases List.mem_append.mp hw2 with h | h
            · exact hqWF w2 (List.mem_cons_of_mem _ h)
            · rcases List.mem_cons.mp h with rfl | h2
              · simp only [winWF]
                omega
              · rcases List.mem_cons.mp h2 with rfl | h3
                · simp only [winWF]
                  omega
                · exact absurd h3 (List.not_mem_nil _)
          · intro m hm2
            rcases List.mem_append.mp hm2 with h | h
            · exact haccWF m h
            · rcases List.mem_cons.mp h with rfl | h2
              · simp only [matchWF]
                omega
              · exact absurd h2 (List.not_mem_nil _)
          · rw [List.map_append, List.map_append, List.pairwise_append]
            have hrestparts := List.pairwise_append.mp hrest
            refine ⟨?_, ?_, ?_⟩
            · rw [List.pairwise_append]
              refine ⟨hrestparts.1, ?_, ?_⟩
              · simp only [List.map_cons, List.map_nil]
                refine List.pairwise_cons.mpr ⟨?_, List.pairwise_singleton _ _⟩
                intro y hy
                rcases List.mem_singleton.mp hy with rfl
                exact Or.inl (by simp only [itemLe]; omega)
              · intro x hx y hy
                have hx2 := hnew x (List.mem_append.mpr (Or.inl hx))
                simp only [List.map_cons, List.map_nil] at hy
                rcases List.mem_cons.mp hy with rfl | hy2
                · exact hx2.1
                · rcases List.mem_singleton.mp hy2 with rfl
                  exact hx2.2.1
            · rw [List.pairwise_append]
              refine ⟨hrestparts.2.1, ?_, ?_⟩
              · simp only [List.map_cons, List.map_nil]
                exact List.pairwise_singleton _ _
              · intro x hx y hy
                have hx2 := hnew x (List.mem_append.mpr (Or.inr hx))
                simp only [List.map_cons, List.map_nil] at hy
                rcases List.mem_singleton.mp hy with rfl
                exact hx2.2.2
            · intro x hx y hy
              rcases List.mem_append.mp hx with hxt | hxn
              · rcases List.mem_append.mp hy with hya | hyn
                · exact hrestparts.2.2 x hxt y hya
                · have hx2 := hnew x (List.mem_append.mpr (Or.inl hxt))
                  simp only [List.map_cons, List.map_nil] at hyn
                  rcases List.mem_singleton.mp hyn with rfl
                  exact hx2.2.2
              · simp only [List.map_cons, List.map_nil] at hxn
                rcases List.mem_append.mp hy with hya | hyn
                · have hy2 := hnew y (List.mem_append.mpr (Or.inr hya))
                  rcases List.mem_cons.mp hxn with rfl | hx2
                  · exact itemCompat_symm hy2.1
                  · rcases List.mem_singleton.mp hx2 with rfl
                    exact itemCompat_symm hy2.2.1
                · simp only [List.map_cons, List.map_nil] at hyn
                  rcases List.mem_singleton.mp hyn with rfl
                  rcases List.mem_cons.mp hxn with rfl | hx2
                  · exact Or.inl (by simp only [itemLe]; omega)
                  · rcases List.mem_singleton.mp hx2 with rfl
                    exact Or.inr (by simp only [itemLe]; omega)
        · rw [if_neg hm]
          have hz := hbounds.1 (by omega)
          obtain ⟨hza, hzb⟩ := hz
          subst hza
          subst hzb
          have hlen0 : len = 0 := by omega
          subst hlen0
          have hnew : ∀ x ∈ t.map Sum.inl ++ acc.map Sum.inr,
              itemCompat x (Sum.inr (sa, sb, 0)) :=
            fun x hx => newItemCompatZero sa aj sb bj (by omega) (by omega)
              x (hwAll x hx)
          apply ih
          refine ⟨fun w2 hw2 => hqWF w2 (List.mem_cons_of_mem _ hw2), ?_, ?_⟩
          · intro m hm2
            rcases List.mem_append.mp hm2 with h | h
            · exact haccWF m h
            · rcases List.mem_cons.mp h with rfl | h2
              · simp only [matchWF]
                omega
              · exact absurd h2 (List.not_mem_nil _)
          · rw [List.map_append, List.pairwise_append]
            have hrestparts := List.pairwise_append.mp hrest
            refine ⟨hrestparts.1, ?_, ?_⟩
            · rw [List.pairwise_append]
              refine ⟨hrestparts.2.1, ?_, ?_⟩
              · simp only [List.map_cons, List.map_nil]
                exact List.pairwise_singleton _ _
              · intro x hx y hy
                have hx2 := hnew x (List.mem_append.mpr (Or.inr hx))
                simp only [List.map_cons, List.map_nil] at hy
                rcases List.mem_cons.mp hy with rfl | hy2
                · exact hx2
                · exact absurd hy2 (List.not_mem_nil _)
            · intro x hx y hy
              rcases List.mem_append.mp hy with hya | hyn
              · exact hrestparts.2.2 x hx y hya
              · have hx2 := hnew x (List.mem_append.mpr (Or.inl hx))
                simp only [List.map_cons, List.map_nil] at hyn
                rcases List.mem_cons.mp hyn with rfl | hy2
                · exact hx2
                · exact absurd hy2 (List.not_mem_nil _)

theorem find_matches_ok {α κ : Type} [DecidableEq κ] (ms : List (α → κ))
    (a b : List α) :
    (∀ m ∈ LineMatcher.find_matches ms a b, matchWF a.length b.length m) ∧
    List.Pairwise (fun m1 m2 : MatchT =>
      m1.1 + m1.2.2 ≤ m2.1 ∧ m1.2.1 + m1.2.2 ≤ m2.2.1 ∧ m1.1 < m2.1 ∧
        m1.2.1 < m2.2.1) (LineMatcher.find_matches ms a b) := by
  have hinv : matcherInv a.length b.length [(0, a.length, 0, b.length)] [] := by
    refine ⟨?_, ?_, ?_⟩
    · intro w hw
      rcases List.mem_singleton.mp hw with rfl
      simp only [winWF]
      omega
    · intro m hm
      exact absurd hm (List.not_mem_nil _)
    · simp
  have hgo := findMatchesGo_inv ms a b (matcherFuel a b)
    [(0, a.length, 0, b.length)] [] hinv
  have hperm := sortLe_perm tripLe
    (findMatchesGo ms a b (matcherFuel a b) [(0, a.length, 0, b.length)] [])
  constructor
  · intro m hm
    simp only [LineMatcher.find_matches] at hm
    exact hgo.1 m (hperm.mem_iff.mp hm)
  · have hcompat : List.Pairwise
        (fun m1 m2 : MatchT => itemCompat (Sum.inr m1) (Sum.inr m2))
        (findMatchesGo ms a b (matcherFuel a b)
          [(0, a.length, 0, b.length)] []) :=
      List.pairwise_map.mp hgo.2
    have hcompat2 : List.Pairwise
        (fun m1 m2 : MatchT => itemCompat (Sum.inr m1) (Sum.inr m2))
        (sortLe tripLe (findMatchesGo ms a b (matcherFuel a b)
          [(0, a.length, 0, b.length)] [])) :=
      (hperm.pairwise_iff (fun h => itemCompat_symm h)).mpr hcompat
    have hsorted := sortLe_pairwise tripLe tripLe_trans tripLe_total
      (findMatchesGo ms a b (matcherFuel a b) [(0, a.length, 0, b.length)] [])
    simp only [LineMatcher.find_matches]
    refine (hcompat2.and hsorted).imp ?_
    intro m1 m2 h
    obtain ⟨hc, hs⟩ := h
    simp only [tripLe, Bool.or_eq_true, Bool.and_eq_true, decide_eq_true_eq]
      at hs
    rcases hc with h | h
    · simp only [itemLe] at h
      exact h
    · simp only [itemLe] at h
      omega

/-! ### Claim theorem: alignment invariants -/

/-- C7: the match triples returned by the sequence matcher, sorted by
reference-sequence start, are pairwise non-overlapping and monotonic in
both coordinates: each run's positions lie strictly after the previous
run's positions in both sequences. -/
theorem claim_C7_matches_monotonic {α κ : Type} [DecidableEq κ]
    (ms : List (α → κ)) (a b : List α) :
    List.Pairwise (fun m1 m2 : MatchT =>
      m1.1 + m1.2.2 ≤ m2.1 ∧ m1.2.1 + m1.2.2 ≤ m2.2.1)
      (LineMatcher.find_matches ms a b) :=
  (find_matches_ok ms a b).2.imp (fun h => ⟨h.1, h.2.1⟩)

/-! ### The engine's flush condition (claim C4) -/

theorem process_hunks_empty_sides {α : Type} [DecidableEq α] (A B O : List α)
    (ch : List α → List α → List α → List α) (oh : List ℕ) :
    process_hunks A B O ch [] [] oh = [] := by
  simp [process_hunks, classify_hunk, hunks_equal, sliceOf]

theorem rangeList_empty (lo hi : ℕ) (h : hi ≤ lo) : rangeList lo hi = [] := by
  unfold rangeList
  rw [Nat.sub_eq_zero_of_le h]
  rfl

theorem diff3Walk_output_eq {α : Type} [DecidableEq α]
    (mg : α → α → α → Option α) (ch : List α → List α → List α → List α)
    (A O B : List α) (oToB : List (ℕ × ℕ)) :
    ∀ (pairs : List (ℕ × ℕ)) (na nb no_ : ℕ),
    (diff3Walk mg ch A O B oToB pairs na nb no_).1 =
      (diff3WalkSpecGap mg ch A O B oToB pairs na nb no_).1 := by
  intro pairs
  induction pairs with
  | nil =>
    intro na nb no_
    rfl
  | cons p rest ih =>
    intro na nb no_
    obtain ⟨o, a⟩ := p
    simp only [diff3Walk, diff3WalkSpecGap]
    cases hlook : lookupA oToB o with
    | none =>
      dsimp only
      exact ih na nb no_
    | some b =>
      dsimp only
      cases hmerge : mergeIdx mg A O B a o b with
      | none =>
        dsimp only
        exact ih na nb no_
      | some line =>
        dsimp only
        by_cases h1 : na < a ∨ nb < b
        · rw [if_pos h1, if_pos (by tauto)]
          simp only
          rw [ih (a + 1) (b + 1) (o + 1)]
        · rw [if_neg h1]
          by_cases h2 : no_ < o
          · rw [if_pos (by tauto)]
            simp only
            rw [rangeList_empty na a (by omega), rangeList_empty nb b (by omega),
              process_hunks_empty_sides]
            rw [ih (a + 1) (b + 1) (o + 1)]
            rfl
          · rw [if_neg (by tauto)]
            simp only
            rw [ih (a + 1) (b + 1) (o + 1)]

/-- C4, amended: before yielding the next merged record, the walk flushes
a hunk when there is a gap in the local or remote coordinate space, but
not when the only gap is in the ancestor space; this difference from the
specified any-space condition is invisible in the output: for every input
the merged output equals that of the spec-described walk which also
flushes on ancestor-space gaps, since such a flush emits nothing. -/
theorem claim_C4_flush_condition {α κ : Type} [DecidableEq α] [DecidableEq κ]
    (mg : α → α → α → Option α) (ch : List α → List α → List α → List α)
    (ms : List (α → κ)) (A O B : List α) :
    (diff3 mg ch ms A O B).1 = (diff3SpecGap mg ch ms A O B).1 := by
  simp only [diff3, diff3SpecGap]
  exact diff3Walk_output_eq mg ch A O B _ _ 0 0 0

/-- C4 counterexample: ancestor `[p, x]` against identical sides `[x]`.
When the surviving record `x` is confirmed there is a gap in the ancestor
coordinate space only, and the source flushes no hunk for it (its flush
log holds only the final empty flush), while the spec-described any-space
walk flushes the ancestor-gap hunk `([], [], [0])` there. -/
theorem claim_C4_flush_condition_counterexample :
    (diff3 ASSLine.merge (fun a b _ => a ++ b) [fun r : RecT => r]
      [[("Type", "Dialogue"), ("Text", "x")]]
      [[("Type", "Dialogue"), ("Text", "p")],
        [("Type", "Dialogue"), ("Text", "x")]]
      [[("Type", "Dialogue"), ("Text", "x")]]).2 = [([], [], [])] ∧
    (diff3SpecGap ASSLine.merge (fun a b _ => a ++ b) [fun r : RecT => r]
      [[("Type", "Dialogue"), ("Text", "x")]]
      [[("Type", "Dialogue"), ("Text", "p")],
        [("Type", "Dialogue"), ("Text", "x")]]
      [[("Type", "Dialogue"), ("Text", "x")]]).2 =
      [([], [], [0]), ([], [], [])] := by
  constructor
  · decide
  · decide

/-! ### Identical-sides merge (claim C5): support lemmas -/

theorem mem_map_indices (mts : List MatchT) (p : ℕ × ℕ) :
    p ∈ map_indices mts ↔
      ∃ m ∈ mts, ∃ i < m.2.2, p = (m.1 + i, m.2.1 + i) := by
  simp only [map_indices, List.mem_flatMap, List.mem_map, List.mem_range]
  constructor
  · rintro ⟨m, hm, i, hi, rfl⟩
    exact ⟨m, hm, i, hi, rfl⟩
  · rintro ⟨m, hm, i, hi, rfl⟩
    exact ⟨m, hm, i, hi, rfl⟩

theorem map_indices_sorted (mts : List MatchT)
    (hpw : List.Pairwise (fun m1 m2 : MatchT =>
      m1.1 + m1.2.2 ≤ m2.1 ∧ m1.2.1 + m1.2.2 ≤ m2.2.1) mts) :
    List.Pairwise (fun p q : ℕ × ℕ => p.1 < q.1 ∧ p.2 < q.2)
      (map_indices mts) := by
  induction mts with
  | nil => exact List.Pairwise.nil
  | cons m rest ih =>
    obtain ⟨hm, hrest⟩ := List.pairwise_cons.mp hpw
    have hblock : List.Pairwise (fun p q : ℕ × ℕ => p.1 < q.1 ∧ p.2 < q.2)
        ((List.range m.2.2).map (fun i => (m.1 + i, m.2.1 + i))) := by
      refine List.pairwise_map.mpr ?_
      refine List.Pairwise.imp ?_ (List.pairwise_lt_range m.2.2)
      intro i j hij
      exact ⟨by omega, by omega⟩
    rw [show map_indices (m :: rest) =
      ((List.range m.2.2).map (fun i => (m.1 + i, m.2.1 + i))) ++
        map_indices rest from rfl]
    rw [List.pairwise_append]
    refine ⟨hblock, ih hrest, ?_⟩
    intro p hp q hq
    obtain ⟨i, hi, rfl⟩ : ∃ i < m.2.2, p = (m.1 + i, m.2.1 + i) := by
      obtain ⟨i, hi, he⟩ := List.mem_map.mp hp
      exact ⟨i, List.mem_range.mp hi, he.symm⟩
    obtain ⟨m2, hm2, j, hj, rfl⟩ := (mem_map_indices rest q).mp hq
    obtain ⟨h1, h2⟩ := hm m2 hm2
    exact ⟨by omega, by omega⟩

theorem map_indices_bounds (mts : List MatchT) (lenO lenA : ℕ)
    (hWF : ∀ m ∈ mts, matchWF lenO lenA m) :
    ∀ p ∈ map_indices mts, p.1 < lenO ∧ p.2 < lenA := by
  intro p hp
  obtain ⟨m, hm, i, hi, rfl⟩ := (mem_map_indices mts p).mp hp
  obtain ⟨h1, h2⟩ := hWF m hm
  exact ⟨by omega, by omega⟩

theorem lookupA_self_of_sorted (M : List (ℕ × ℕ))
    (hpw : List.Pairwise (fun p q : ℕ × ℕ => p.1 < q.1 ∧ p.2 < q.2) M) :
    ∀ p ∈ M, lookupA M p.1 = some p.2 := by
  induction M with
  | nil =>
    intro p hp
    exact absurd hp (List.not_mem_nil p)
  | cons q rest ih =>
    obtain ⟨hq, hrest⟩ := List.pairwise_cons.mp hpw
    intro p hp
    rcases List.mem_cons.mp hp with rfl | hp2
    · rw [lookupA, if_pos rfl]
    · have hlt := hq p hp2
      rw [lookupA, if_neg (by omega)]
      exact ih hrest p hp2

theorem lookupA_of_mem_nodup (l : RecT) (k v : String)
    (hnd : (keysOf l).Nodup) (hmem : (k, v) ∈ l) : lookupA l k = some v := by
  induction l with
  | nil => exact absurd hmem (List.not_mem_nil _)
  | cons q rest ih =>
    have hnd1 : q.1 ∉ keysOf rest :=
      (List.nodup_cons.mp (by simpa [keysOf] using hnd)).1
    have hnd2 : (keysOf rest).Nodup :=
      (List.nodup_cons.mp (by simpa [keysOf] using hnd)).2
    rcases List.mem_cons.mp hmem with rfl | hmem2
    · rw [lookupA, if_pos rfl]
    · by_cases hq : q.1 = k
      · exfalso
        apply hnd1
        rw [hq]
        exact List.mem_map.mpr ⟨(k, v), hmem2, rfl⟩
      · rw [lookupA, if_neg hq]
        exact ih hnd2 hmem2

theorem rec_ext (fl : List String) :
    ∀ (x p : RecT), keysOf x = fl → keysOf p = fl → fl.Nodup →
    (∀ fv ∈ x, lookupA p fv.1 = some fv.2) → x = p := by
  induction fl with
  | nil =>
    intro x p hx hp _ _
    have hx0 : x = [] := by
      cases x with
      | nil => rfl
      | cons q t => simp [keysOf] at hx
    have hp0 : p = [] := by
      cases p with
      | nil => rfl
      | cons q t => simp [keysOf] at hp
    rw [hx0, hp0]
  | cons k flt ih =>
    intro x p hx hp hnd hpt
    obtain ⟨hk1, hnd'⟩ := List.nodup_cons.mp hnd
    cases x with
    | nil => simp [keysOf] at hx
    | cons xq xt =>
      cases p with
      | nil => simp [keysOf] at hp
      | cons pq pt =>
        simp only [keysOf, List.map_cons, List.cons.injEq] at hx hp
        have hxq : xq.1 = k := hx.1
        have hpq : pq.1 = k := hp.1
        have hv : xq.2 = pq.2 := by
          have := hpt xq (List.mem_cons_self _ _)
          rw [lookupA, if_pos (by rw [hpq, hxq])] at this
          exact (Option.some.inj this).symm
        have hq : xq = pq := Prod.ext_iff.mpr ⟨by rw [hxq, hpq], hv⟩
        have ht : xt = pt := by
          apply ih xt pt hx.2 hp.2 hnd'
          intro fv hfv
          have hmem := hpt fv (List.mem_cons_of_mem _ hfv)
          have hfk : fv.1 ≠ pq.1 := by
            intro he
            apply hk1
            rw [← hx.2]
            exact List.mem_map.mpr ⟨fv, hfv, by rw [he, hpq]⟩
          rw [lookupA, if_neg (fun h => hfk h.symm)] at hmem
          exact hmem
        rw [hq, ht]

theorem changedFields_self_empty (x p : RecT)
    (hpt : ∀ fv ∈ x, lookupA p fv.1 = some fv.2) :
    changedFields x p = [] := by
  unfold changedFields
  rw [List.filter_eq_nil_iff]
  intro fv hfv
  simp [hpt fv hfv]

theorem merge_self_eq (p : RecT) (hnd : (keysOf p).Nodup) :
    ASSLine.merge p p p = some p := by
  have hpt : ∀ fv ∈ p, lookupA p fv.1 = some fv.2 := by
    intro fv hfv
    apply lookupA_of_mem_nodup p fv.1 fv.2 hnd
    simpa using hfv
  have hch : changedFields p p = [] := changedFields_self_empty p p hpt
  have hmap : p.map (overrideField [] []) = p := by
    have he : p.map (overrideField [] []) = p.map (fun fv => fv) :=
      List.map_congr_left (fun fv _ => rfl)
    rw [he, List.map_id']
  simp only [ASSLine.merge, hch, List.any_nil, Bool.false_eq_true, if_false,
    hmap]

theorem merge_self_ne (fl : List String) (x p : RecT) (hx : keysOf x = fl)
    (hp : keysOf p = fl) (hnd : fl.Nodup) (hne : x ≠ p) :
    ASSLine.merge x p x = none := by
  have hex : ∃ fv ∈ x, lookupA p fv.1 ≠ some fv.2 := by
    by_contra hno
    push_neg at hno
    exact hne (rec_ext fl x p hx hp hnd hno)
  obtain ⟨fv, hfv, hlp⟩ := hex
  have hmem : fv ∈ changedFields x p :=
    List.mem_filter.mpr ⟨hfv, by simpa using hlp⟩
  have hguard : (changedFields x p).any
      (fun fv => (changedFields x p).any
        (fun gw => decide (fv.1 = gw.1))) = true := by
    apply List.any_eq_true.mpr
    refine ⟨fv, hmem, ?_⟩
    apply List.any_eq_true.mpr
    exact ⟨fv, hmem, by simp⟩
  simp only [ASSLine.merge, hguard, if_true]

theorem mem_zip_self (h : List ℕ) : ∀ p ∈ h.zip h, p.1 = p.2 := by
  induction h with
  | nil =>
    intro p hp
    exact absurd hp (List.not_mem_nil p)
  | cons x t ih =>
    intro p hp
    rw [List.zip_cons_cons] at hp
    rcases List.mem_cons.mp hp with rfl | hp2
    · rfl
    · exact ih p hp2

theorem hunks_equal_refl {α : Type} [DecidableEq α] (X : List α) (h : List ℕ) :
    hunks_equal X h X h = true := by
  unfold hunks_equal
  rw [Bool.and_eq_true]
  refine ⟨by simp, ?_⟩
  rw [List.all_eq_true]
  intro p hp
  rw [mem_zip_self h p hp]
  simp

theorem sliceOf_range {α : Type} (X : List α) :
    ∀ (n lo : ℕ), sliceOf X (List.range' lo n) = (X.drop lo).take n := by
  intro n
  induction n with
  | zero => intro lo; rfl
  | succ n ih =>
    intro lo
    rw [List.range'_succ]
    unfold sliceOf
    rw [List.filterMap_cons]
    cases hx : X.get? lo with
    | none =>
      have hlen : X.length ≤ lo := List.get?_eq_none.mp hx
      have h1 := ih (lo + 1)
      unfold sliceOf at h1
      rw [h1, List.drop_eq_nil_of_le hlen, List.drop_eq_nil_of_le (by omega)]
      simp
    | some x =>
      have hlt : lo < X.length := by
        by_contra hge
        push_neg at hge
        rw [List.get?_eq_none.mpr hge] at hx
        exact absurd hx (by simp)
      have h2 := List.get?_eq_get hlt
      rw [hx] at h2
      have hxe : x = X.get ⟨lo, hlt⟩ := Option.some.inj h2
      have hdrop : X.drop lo = x :: X.drop (lo + 1) := by
        rw [hxe]
        exact List.drop_eq_get_cons hlt
      have h1 := ih (lo + 1)
      unfold sliceOf at h1
      rw [h1, hdrop]
      rfl

theorem sliceOf_rangeList {α : Type} (X : List α) (lo hi : ℕ) :
    sliceOf X (rangeList lo hi) = (X.drop lo).take (hi - lo) := by
  unfold rangeList
  exact sliceOf_range X (hi - lo) lo

theorem classify_self_takeA (A O : List RecT) (r roh : List ℕ) :
    classify_hunk A A O r r roh = HunkChoice.takeA := by
  simp [classify_hunk, hunks_equal_refl]

theorem diff3Walk_self
    (ch : List RecT → List RecT → List RecT → List RecT)
    (A O : List RecT) (fl : List String)
    (hA : ∀ r ∈ A, keysOf r = fl) (hO : ∀ r ∈ O, keysOf r = fl)
    (hnd : fl.Nodup) (M : List (ℕ × ℕ))
    (hlook : ∀ p ∈ M, lookupA M p.1 = some p.2) :
    ∀ (pairs : List (ℕ × ℕ)) (na no_ : ℕ),
    (∀ p ∈ pairs, p ∈ M) →
    List.Pairwise (fun p q : ℕ × ℕ => p.1 < q.1 ∧ p.2 < q.2) pairs →
    (∀ p ∈ pairs, p.1 < O.length ∧ p.2 < A.length) →
    (∀ p ∈ pairs, na ≤ p.2 ∧ no_ ≤ p.1) →
    (diff3Walk ASSLine.merge ch A O A M pairs na na no_).1 =
      List.drop na A ∧
    ∀ f2 ∈ (diff3Walk ASSLine.merge ch A O A M pairs na na no_).2,
      classify_hunk A A O f2.1 f2.2.1 f2.2.2 ≠ HunkChoice.resolve := by
  intro pairs
  induction pairs with
  | nil =>
    intro na no_ _ _ _ _
    simp only [diff3Walk]
    constructor
    · simp only [process_hunks, classify_self_takeA]
      rw [sliceOf_rangeList]
      rw [show A.length - na = (A.drop na).length from (List.length_drop na A).symm,
        List.take_length]
    · intro f2 hf2
      rcases List.mem_singleton.mp hf2 with rfl
      rw [classify_self_takeA]
      intro hcontra
      exact HunkChoice.noConfusion hcontra
  | cons p rest ih =>
    intro na no_ hsub hpw hbound hge
    obtain ⟨o, a⟩ := p
    obtain ⟨hheadrel, hpwrest⟩ := List.pairwise_cons.mp hpw
    have hlk := hlook (o, a) (hsub (o, a) (List.mem_cons_self _ _))
    have hb := hbound (o, a) (List.mem_cons_self _ _)
    have hg := hge (o, a) (List.mem_cons_self _ _)
    simp only at hlk hb hg
    have hrest_sub : ∀ p ∈ rest, p ∈ M :=
      fun p hp => hsub p (List.mem_cons_of_mem _ hp)
    have hrest_bound : ∀ p ∈ rest, p.1 < O.length ∧ p.2 < A.length :=
      fun p hp => hbound p (List.mem_cons_of_mem _ hp)
    have hrest_ge : ∀ p ∈ rest, a + 1 ≤ p.2 ∧ o + 1 ≤ p.1 := by
      intro p hp
      have := hheadrel p hp
      simp only at this
      omega
    have ihr := ih (a + 1) (o + 1) hrest_sub hpwrest hrest_bound hrest_ge
    simp only [diff3Walk]
    rw [hlk]
    dsimp only
    obtain ⟨x, hx⟩ : ∃ x, A.get? a = some x := ⟨_, List.get?_eq_get hb.2⟩
    obtain ⟨pr, hpr⟩ : ∃ y, O.get? o = some y := ⟨_, List.get?_eq_get hb.1⟩
    have hxmem : x ∈ A := List.get?_mem hx
    have hprmem : pr ∈ O := List.get?_mem hpr
    have hmi : mergeIdx ASSLine.merge A O A a o a = ASSLine.merge x pr x := by
      unfold mergeIdx
      rw [hx, hpr]
    rw [hmi]
    have hdropa : A.drop a = x :: A.drop (a + 1) := by
      have h2 := List.get?_eq_get hb.2
      rw [hx] at h2
      rw [Option.some.inj h2]
      exact List.drop_eq_get_cons hb.2
    by_cases hxp : x = pr
    · have hmeq : ASSLine.merge x pr x = some pr := by
        rw [hxp]
        exact merge_self_eq pr (by rw [hO pr hprmem]; exact hnd)
      rw [hmeq]
      dsimp only
      by_cases hgap : na < a
      · rw [if_pos (Or.inl hgap)]
        constructor
        · dsimp only
          simp only [process_hunks, classify_self_takeA]
          rw [ihr.1, sliceOf_rangeList]
          rw [hxp] at hdropa
          calc (A.drop na).take (a - na) ++ pr :: A.drop (a + 1)
              = (A.drop na).take (a - na) ++ A.drop a := by rw [hdropa]
            _ = (A.drop na).take (a - na) ++
                (A.drop na).drop (a - na) := by
                  rw [List.drop_drop, Nat.add_sub_cancel' (by omega : na ≤ a)]
            _ = A.drop na := List.take_append_drop _ _
        · intro f2 hf2
          dsimp only at hf2
          rcases List.mem_cons.mp hf2 with rfl | hf3
          · rw [classify_self_takeA]
            intro hcontra
            exact HunkChoice.noConfusion hcontra
          · exact ihr.2 f2 hf3
      · rw [if_neg (fun hc => hgap (hc.elim id id))]
        have hana : a = na := by omega
        rw [hxp] at hdropa
        constructor
        · dsimp only
          rw [ihr.1, ← hana, hdropa]
        · intro f2 hf2
          dsimp only at hf2
          exact ihr.2 f2 hf2
    · have hmne : ASSLine.merge x pr x = none :=
        merge_self_ne fl x pr (hA x hxmem) (hO pr hprmem) hnd hxp
      rw [hmne]
      dsimp only
      have hge2 : ∀ p ∈ rest, na ≤ p.2 ∧ no_ ≤ p.1 := by
        intro p hp
        have h1 := hheadrel p hp
        simp only at h1
        omega
      exact ih na no_ hrest_sub hpwrest hrest_bound hge2

/-! ### Claim theorem: identical sides merge cleanly -/

/-- C5: when the local and remote sequences are content-identical, the
three-way merge outputs exactly that common content and never invokes the
hunk resolver (no hunk is classified `resolve`, hence no conflict flag can
be set), even when both sides differ from the ancestor.  Records are
assumed well-formed: every record of the section carries the same
duplicate-free field-name list. -/
theorem claim_C5_identical_sides {κ : Type} [DecidableEq κ]
    (ms : List (RecT → κ))
    (ch : List RecT → List RecT → List RecT → List RecT)
    (A O : List RecT) (fl : List String)
    (hA : ∀ r ∈ A, keysOf r = fl) (hO : ∀ r ∈ O, keysOf r = fl)
    (hnd : fl.Nodup) :
    (diff3 ASSLine.merge ch ms A O A).1 = A ∧
    ∀ f2 ∈ (diff3 ASSLine.merge ch ms A O A).2,
      classify_hunk A A O f2.1 f2.2.1 f2.2.2 ≠ HunkChoice.resolve := by
  have hfm := find_matches_ok ms O A
  have hsorted := map_indices_sorted (LineMatcher.find_matches ms O A)
    (hfm.2.imp (fun h => ⟨h.1, h.2.1⟩))
  have hbounds := map_indices_bounds (LineMatcher.find_matches ms O A)
    O.length A.length hfm.1
  have hlook := lookupA_self_of_sorted
    (map_indices (LineMatcher.find_matches ms O A)) hsorted
  have hwalk := diff3Walk_self ch A O fl hA hO hnd
    (map_indices (LineMatcher.find_matches ms O A)) hlook
    (map_indices (LineMatcher.find_matches ms O A)) 0 0
    (fun p hp => hp) hsorted hbounds (fun p _ => ⟨Nat.zero_le _, Nat.zero_le _⟩)
  simp only [diff3]
  rw [List.drop_zero] at hwalk
  exact hwalk

/-- C5 witness: one ancestor line whose text both sides changed to the same
new value; the output is the common side and no hunk resolves to the
conflict handler. -/
theorem claim_C5_identical_sides_witness :
    (diff3 ASSLine.merge (fun a b _ => a ++ b) [fun r : RecT => r]
      [[("Type", "Dialogue"), ("Text", "new")]]
      [[("Type", "Dialogue"), ("Text", "old")]]
      [[("Type", "Dialogue"), ("Text", "new")]]).1 =
      [[("Type", "Dialogue"), ("Text", "new")]] ∧
    ∀ f2 ∈ (diff3 ASSLine.merge (fun a b _ => a ++ b) [fun r : RecT => r]
      [[("Type", "Dialogue"), ("Text", "new")]]
      [[("Type", "Dialogue"), ("Text", "old")]]
      [[("Type", "Dialogue"), ("Text", "new")]]).2,
      classify_hunk [[("Type", "Dialogue"), ("Text", "new")]]
        [[("Type", "Dialogue"), ("Text", "new")]]
        [[("Type", "Dialogue"), ("Text", "old")]]
        f2.1 f2.2.1 f2.2.2 ≠ HunkChoice.resolve :=
  claim_C5_identical_sides [fun r : RecT => r] (fun a b _ => a ++ b)
    [[("Type", "Dialogue"), ("Text", "new")]]
    [[("Type", "Dialogue"), ("Text", "old")]]
    ["Type", "Text"] (by decide) (by decide) (by decide)

/-! ### Side-table reconciliation invariants (claims C6, C10) -/

theorem lookupA_some_of_mem {κ β : Type} [DecidableEq κ] {l : List (κ × β)}
    {k : κ} {v : β} (h : (k, v) ∈ l) : ∃ w, lookupA l k = some w := by
  induction l with
  | nil => exact absurd h (List.not_mem_nil _)
  | cons q rest ih =>
    by_cases hq : q.1 = k
    · exact ⟨q.2, by rw [lookupA, if_pos hq]⟩
    · rcases List.mem_cons.mp h with rfl | h2
      · exact absurd rfl hq
      · obtain ⟨w, hw⟩ := ih h2
        exact ⟨w, by rw [lookupA, if_neg hq]; exact hw⟩

theorem not_mem_keys_of_lookupA_none {κ β : Type} [DecidableEq κ]
    {l : List (κ × β)} {k : κ} (h : lookupA l k = none) :
    k ∉ l.map Prod.fst := by
  intro hk
  obtain ⟨q, hq, hqk⟩ := List.mem_map.mp hk
  obtain ⟨w, hw⟩ := lookupA_some_of_mem
    (show (k, q.2) ∈ l by rw [show (k, q.2) = q from Prod.ext_iff.mpr ⟨hqk.symm, rfl⟩]; exact hq)
  rw [h] at hw
  exact Option.noConfusion hw

theorem lookupA_mem_nodup {κ β : Type} [DecidableEq κ] {l : List (κ × β)}
    {k : κ} {v : β} (hnd : (l.map Prod.fst).Nodup) (hmem : (k, v) ∈ l) :
    lookupA l k = some v := by
  induction l with
  | nil => exact absurd hmem (List.not_mem_nil _)
  | cons q rest ih =>
    have hnd1 : q.1 ∉ rest.map Prod.fst := (List.nodup_cons.mp (by simpa using hnd)).1
    have hnd2 : (rest.map Prod.fst).Nodup := (List.nodup_cons.mp (by simpa using hnd)).2
    rcases List.mem_cons.mp hmem with rfl | hmem2
    · rw [lookupA, if_pos rfl]
    · by_cases hq : q.1 = k
      · exfalso
        apply hnd1
        rw [hq]
        exact List.mem_map.mpr ⟨(k, v), hmem2, rfl⟩
      · rw [lookupA, if_neg hq]
        exact ih hnd2 hmem2

theorem assoc_eq_of_fst_eq {κ β : Type} [DecidableEq κ] {l : List (κ × β)}
    (hnd : (l.map Prod.fst).Nodup) {q1 q2 : κ × β} (h1 : q1 ∈ l) (h2 : q2 ∈ l)
    (hk : q1.1 = q2.1) : q1 = q2 := by
  have e1 : lookupA l q1.1 = some q1.2 :=
    lookupA_mem_nodup hnd (by rw [show (q1.1, q1.2) = q1 from Prod.ext_iff.mpr ⟨rfl, rfl⟩]; exact h1)
  have e2 : lookupA l q2.1 = some q2.2 :=
    lookupA_mem_nodup hnd (by rw [show (q2.1, q2.2) = q2 from Prod.ext_iff.mpr ⟨rfl, rfl⟩]; exact h2)
  rw [hk] at e1
  rw [e2] at e1
  exact Prod.ext_iff.mpr ⟨hk, (Option.some.inj e1).symm⟩

theorem edExt_refl (st : EDState) : edExt st st :=
  ⟨fun _ _ h => h, fun _ hq => hq⟩

theorem edExt_trans {s1 s2 s3 : EDState} (h12 : edExt s1 s2)
    (h23 : edExt s2 s3) : edExt s1 s3 :=
  ⟨fun c i h => h23.1 c i (h12.1 c i h), fun q hq => h23.2 q (h12.2 q hq)⟩

theorem edStep_ok (st : EDState) (im : List (Int × Int))
    (acc : List DataEntry) (e : DataEntry) (hinv : edInv st) :
    edInv (edStep (st, im, acc) e).1 ∧ edExt st (edStep (st, im, acc) e).1 ∧
    (∀ p ∈ (edStep (st, im, acc) e).2.1, p ∈ im ∨
      ∃ q ∈ (edStep (st, im, acc) e).1.idToExtradata, q.1 = p.2) ∧
    (∀ e2 ∈ (edStep (st, im, acc) e).2.2, e2 ∈ acc ∨
      lookupA (edStep (st, im, acc) e).1.extradataToId (e2.key, e2.value) =
        some e2.id) := by
  obtain ⟨hI1, hI2, hI3, hI4, hI5, hI6⟩ := hinv
  simp only [edStep]
  cases hc : lookupA st.extradataToId (e.key, e.value) with
  | some i =>
    dsimp only
    refine ⟨⟨hI1, hI2, hI3, hI4, hI5, hI6⟩, edExt_refl st, ?_, ?_⟩
    · intro p hp
      rcases List.mem_cons.mp hp with rfl | hp2
      · right
        obtain ⟨q, hq, hq1, _⟩ := hI5 _ (lookupA_mem hc)
        exact ⟨q, hq, hq1⟩
      · exact Or.inl hp2
    · intro e2 he2
      rcases List.mem_append.mp he2 with h | h
      · exact Or.inl h
      · rcases List.mem_singleton.mp h with rfl
        right
        exact hc
  | none =>
    dsimp only
    have hfresh : (if lookupA st.idToExtradata e.id ≠ none then
        st.largestId + 1 else e.id) ∉ st.idToExtradata.map Prod.fst := by
      by_cases hcol : lookupA st.idToExtradata e.id ≠ none
      · rw [if_pos hcol]
        intro hk
        obtain ⟨q, hq, hqk⟩ := List.mem_map.mp hk
        have := hI3 q hq
        omega
      · rw [if_neg hcol]
        push_neg at hcol
        exact not_mem_keys_of_lookupA_none hcol
    have hcontentfresh : (e.key, e.value) ∉ st.extradataToId.map Prod.fst :=
      not_mem_keys_of_lookupA_none hc
    set newId := if lookupA st.idToExtradata e.id ≠ none then
      st.largestId + 1 else e.id with hnewdef
    refine ⟨⟨?_, ?_, ?_, ?_, ?_, ?_⟩, ⟨?_, ?_⟩, ?_, ?_⟩
    · simp only [List.map_cons]
      exact List.nodup_cons.mpr ⟨hfresh, hI1⟩
    · intro q hq
      rcases List.mem_cons.mp hq with rfl | hq2
      · rfl
      · exact hI2 q hq2
    · intro q hq
      rcases List.mem_cons.mp hq with rfl | hq2
      · exact le_max_right _ _
      · exact le_trans (hI3 q hq2) (le_max_left _ _)
    · simp only [List.map_cons]
      exact List.nodup_cons.mpr ⟨hcontentfresh, hI4⟩
    · intro c hc2
      rcases List.mem_cons.mp hc2 with rfl | hc3
      · exact ⟨(newId, { e with id := newId }), List.mem_cons_self _ _, rfl, rfl⟩
      · obtain ⟨q, hq, hq1, hq2⟩ := hI5 c hc3
        exact ⟨q, List.mem_cons_of_mem _ hq, hq1, hq2⟩
    · intro q hq
      rcases List.mem_cons.mp hq with rfl | hq2
      · rw [lookupA, if_pos rfl]
      · have hne : ((e.key, e.value) : String × String) ≠ (q.2.key, q.2.value) := by
          intro heq
          have h6 := hI6 q hq2
          rw [← heq] at h6
          rw [h6] at hc
          exact Option.noConfusion hc
        rw [lookupA, if_neg hne]
        exact hI6 q hq2
    · intro c i hci
      have hne : ((e.key, e.value) : String × String) ≠ c := by
        intro heq
        rw [heq, hci] at hc
        exact Option.noConfusion hc
      rw [lookupA, if_neg hne]
      exact hci
    · intro q hq
      exact List.mem_cons_of_mem _ hq
    · intro p hp
      rcases List.mem_cons.mp hp with rfl | hp2
      · exact Or.inr ⟨(newId, { e with id := newId }), List.mem_cons_self _ _, rfl⟩
      · exact Or.inl hp2
    · intro e2 he2
      rcases List.mem_append.mp he2 with h | h
      · exact Or.inl h
      · rcases List.mem_singleton.mp h with rfl
        right
        rw [lookupA, if_pos rfl]

theorem edFold_ok : ∀ (entries : List DataEntry) (st : EDState)
    (im : List (Int × Int)) (acc : List DataEntry), edInv st →
    edInv (entries.foldl edStep (st, im, acc)).1 ∧
    edExt st (entries.foldl edStep (st, im, acc)).1 ∧
    (∀ p ∈ (entries.foldl edStep (st, im, acc)).2.1, p ∈ im ∨
      ∃ q ∈ (entries.foldl edStep (st, im, acc)).1.idToExtradata, q.1 = p.2) ∧
    (∀ e2 ∈ (entries.foldl edStep (st, im, acc)).2.2, e2 ∈ acc ∨
      lookupA (entries.foldl edStep (st, im, acc)).1.extradataToId
        (e2.key, e2.value) = some e2.id) := by
  intro entries
  induction entries with
  | nil =>
    intro st im acc hinv
    exact ⟨hinv, edExt_refl st, fun p hp => Or.inl hp, fun e2 he2 => Or.inl he2⟩
  | cons e t ih =>
    intro st im acc hinv
    rw [List.foldl_cons]
    have hstep := edStep_ok st im acc e hinv
    have hstepeta : edStep (st, im, acc) e =
        ((edStep (st, im, acc) e).1, (edStep (st, im, acc) e).2.1,
          (edStep (st, im, acc) e).2.2) := rfl
    rw [hstepeta]
    have ihr := ih (edStep (st, im, acc) e).1 (edStep (st, im, acc) e).2.1
      (edStep (st, im, acc) e).2.2 hstep.1
    refine ⟨ihr.1, edExt_trans hstep.2.1 ihr.2.1, ?_, ?_⟩
    · intro p hp
      rcases ihr.2.2.1 p hp with h | h
      · rcases hstep.2.2.1 p h with h2 | h2
        · exact Or.inl h2
        · obtain ⟨q, hq, hq1⟩ := h2
          exact Or.inr ⟨q, ihr.2.1.2 q hq, hq1⟩
      · exact Or.inr h
    · intro e2 he2
      rcases ihr.2.2.2 e2 he2 with h | h
      · rcases hstep.2.2.2 e2 h with h2 | h2
        · exact Or.inl h2
        · exact Or.inr (ihr.2.1.1 _ _ h2)
      · exact Or.inr h

theorem processFile_ok (st : EDState) (f : FileData) (hinv : edInv st) :
    edInv (processFile st f).1 ∧ edExt st (processFile st f).1 ∧
    (∀ e ∈ (processFile st f).2.extradata,
      lookupA (processFile st f).1.extradataToId (e.key, e.value) =
        some e.id) ∧
    (∀ ev ∈ (processFile st f).2.events, ∀ i ∈ ev,
      ∃ q ∈ (processFile st f).1.idToExtradata, q.1 = i) := by
  have hfold := edFold_ok f.extradata st [] [] hinv
  simp only [processFile]
  refine ⟨hfold.1, hfold.2.1, ?_, ?_⟩
  · intro e he
    rcases hfold.2.2.2 e he with h | h
    · exact absurd h (List.not_mem_nil _)
    · exact h
  · intro ev hev i hi
    obtain ⟨ev0, _, rfl⟩ := List.mem_map.mp hev
    obtain ⟨orig, _, horig⟩ := List.mem_filterMap.mp hi
    rcases hfold.2.2.1 (orig, i) (lookupA_mem horig) with h | h
    · exact absurd h (List.not_mem_nil _)
    · exact h

theorem edInv_empty :
    edInv { extradataToId := [], idToExtradata := [], largestId := 0 } := by
  refine ⟨List.nodup_nil, ?_, ?_, List.nodup_nil, ?_, ?_⟩
  · intro q hq
    exact absurd hq (List.not_mem_nil _)
  · intro q hq
    exact absurd hq (List.not_mem_nil _)
  · intro c hc
    exact absurd hc (List.not_mem_nil _)
  · intro q hq
    exact absurd hq (List.not_mem_nil _)

/-! ### Claim theorems: side-table reconciliation -/

/-- C10: the merged side table returned by `merge_extradata` has
pairwise-distinct assigned ids and pairwise-distinct `(key, value)`
contents. -/
theorem claim_C10_table_distinct (mine parent their : FileData) :
    ((merge_extradata mine parent their).1.map (fun d => d.id)).Nodup ∧
    ((merge_extradata mine parent their).1.map
      (fun d => (d.key, d.value))).Nodup := by
  have h1 := processFile_ok
    { extradataToId := [], idToExtradata := [], largestId := 0 } parent
    edInv_empty
  have h2 := processFile_ok _ mine h1.1
  have h3 := processFile_ok _ their h2.1
  obtain ⟨hI1, hI2, hI3, hI4, hI5, hI6⟩ := h3.1
  simp only [merge_extradata]
  have hperm := sortLe_perm (fun p q => intLe p.1 q.1)
    (processFile (processFile (processFile
      { extradataToId := [], idToExtradata := [], largestId := 0 }
      parent).1 mine).1 their).1.idToExtradata
  constructor
  · unfold mergedTable
    rw [List.map_map]
    have hmapeq : (sortLe (fun p q => intLe p.1 q.1)
        (processFile (processFile (processFile
          { extradataToId := [], idToExtradata := [], largestId := 0 }
          parent).1 mine).1 their).1.idToExtradata).map
          ((fun d => d.id) ∘ Prod.snd) =
        (sortLe (fun p q => intLe p.1 q.1)
          (processFile (processFile (processFile
            { extradataToId := [], idToExtradata := [], largestId := 0 }
            parent).1 mine).1 their).1.idToExtradata).map Prod.fst := by
      apply List.map_congr_left
      intro q hq
      exact hI2 q (hperm.mem_iff.mp hq)
    rw [hmapeq]
    exact ((hperm.map Prod.fst).nodup_iff).mpr hI1
  · unfold mergedTable
    rw [List.map_map]
    apply List.Nodup.map_on
    · intro x hx y hy hxy
      have hx2 := hperm.mem_iff.mp hx
      have hy2 := hperm.mem_iff.mp hy
      have ex := hI6 x hx2
      have ey := hI6 y hy2
      have hcont : (x.2.key, x.2.value) = (y.2.key, y.2.value) := hxy
      rw [hcont, ey] at ex
      exact assoc_eq_of_fst_eq hI1 hx2 hy2 (Option.some.inj ex).symm
    · exact (hperm.nodup_iff).mpr (List.Nodup.of_map _ hI1)

/-- C6: reconciliation deduplicates by content and rewrites references
consistently: any two rewritten side-table entries with identical
`(key, value)` carry the same id, that id names the merged-table entry
holding their content, and every reference index surviving in any
version's rewritten events resolves to an id present in the merged
table. -/
theorem claim_C6_content_dedup (mine parent their : FileData) :
    (∀ e1 ∈ (merge_extradata mine parent their).2.1.extradata ++
        (merge_extradata mine parent their).2.2.1.extradata ++
        (merge_extradata mine parent their).2.2.2.extradata,
      ∀ e2 ∈ (merge_extradata mine parent their).2.1.extradata ++
        (merge_extradata mine parent their).2.2.1.extradata ++
        (merge_extradata mine parent their).2.2.2.extradata,
      e1.key = e2.key → e1.value = e2.value → e1.id = e2.id) ∧
    (∀ e1 ∈ (merge_extradata mine parent their).2.1.extradata ++
        (merge_extradata mine parent their).2.2.1.extradata ++
        (merge_extradata mine parent their).2.2.2.extradata,
      ∃ d ∈ (merge_extradata mine parent their).1,
        d.id = e1.id ∧ d.key = e1.key ∧ d.value = e1.value) ∧
    (∀ ev ∈ (merge_extradata mine parent their).2.1.events ++
        (merge_extradata mine parent their).2.2.1.events ++
        (merge_extradata mine parent their).2.2.2.events,
      ∀ i ∈ ev, ∃ d ∈ (merge_extradata mine parent their).1, d.id = i) := by
  simp only [merge_extradata]
  set st0 : EDState :=
    { extradataToId := [], idToExtradata := [], largestId := 0 } with hst0
  set P1 := processFile st0 parent with hP1
  set P2 := processFile P1.1 mine with hP2
  set P3 := processFile P2.1 their with hP3
  have h1 := processFile_ok st0 parent edInv_empty
  have h2 := processFile_ok P1.1 mine h1.1
  have h3 := processFile_ok P2.1 their h2.1
  rw [← hP1] at h1
  rw [← hP2] at h2
  rw [← hP3] at h3
  obtain ⟨hI1, hI2, hI3, hI4, hI5, hI6⟩ := h3.1
  have hperm := sortLe_perm (fun p q => intLe p.1 q.1) P3.1.idToExtradata
  have hext1 : edExt P1.1 P3.1 := edExt_trans h2.2.1 h3.2.1
  have hext2 : edExt P2.1 P3.1 := h3.2.1
  have hkey : ∀ e1, e1 ∈ P2.2.extradata ++ P1.2.extradata ++ P3.2.extradata →
      lookupA P3.1.extradataToId (e1.key, e1.value) = some e1.id := by
    intro e1 he1
    rcases List.mem_append.mp he1 with h | h
    · rcases List.mem_append.mp h with hm | hp
      · exact hext2.1 _ _ (h2.2.2.1 e1 hm)
      · exact hext1.1 _ _ (h1.2.2.1 e1 hp)
    · exact h3.2.2.1 e1 h
  have hmemtable : ∀ i : Int,
      (∃ q ∈ P3.1.idToExtradata, q.1 = i) →
      ∃ d ∈ mergedTable P3.1, d.id = i := by
    intro i hq
    obtain ⟨q, hq1, hq2⟩ := hq
    refine ⟨q.2, ?_, by rw [hI2 q hq1]; exact hq2⟩
    unfold mergedTable
    exact List.mem_map.mpr ⟨q, hperm.mem_iff.mpr hq1, rfl⟩
  refine ⟨?_, ?_, ?_⟩
  · intro e1 he1 e2 he2 hk hv
    have k1 := hkey e1 he1
    have k2 := hkey e2 he2
    rw [hk, hv] at k1
    rw [k2] at k1
    exact (Option.some.inj k1).symm
  · intro e1 he1
    have k1 := hkey e1 he1
    obtain ⟨q, hq, hq1, hq2⟩ := hI5 _ (lookupA_mem k1)
    refine ⟨q.2, ?_, ?_, ?_, ?_⟩
    · unfold mergedTable
      exact List.mem_map.mpr ⟨q, hperm.mem_iff.mpr hq, rfl⟩
    · rw [hI2 q hq]
      exact hq1
    · exact (Prod.ext_iff.mp hq2).1
    · exact (Prod.ext_iff.mp hq2).2
  · intro ev hev i hi
    apply hmemtable
    rcases List.mem_append.mp hev with hev1 | hev1
    · rcases List.mem_append.mp hev1 with hev2 | hev2
      · obtain ⟨q, hq1, hq2⟩ := h2.2.2.2 ev hev2 i hi
        exact ⟨q, hext2.2 q hq1, hq2⟩
      · obtain ⟨q, hq1, hq2⟩ := h1.2.2.2 ev hev2 i hi
        exact ⟨q, hext1.2 q hq1, hq2⟩
    · obtain ⟨q, hq1, hq2⟩ := h3.2.2.2 ev hev1 i hi
      exact ⟨q, hq1, hq2⟩

/-- C6 witness: three concrete versions sharing one content, with a
duplicated content collapsing to one id, a reassigned colliding id, and
every surviving event reference resolving into the merged table. -/
theorem claim_C6_content_dedup_witness :
    ((⟨1, "k", "v"⟩ : DataEntry).id = (⟨1, "k", "v"⟩ : DataEntry).id) ∧
    (∃ d ∈ (merge_extradata
        ⟨[⟨2, "k", "v"⟩, ⟨3, "k2", "w"⟩], [[2, 3]]⟩
        ⟨[⟨1, "k", "v"⟩], [[1]]⟩
        ⟨[⟨1, "k3", "z"⟩], [[1]]⟩).1,
      d.id = (⟨1, "k", "v"⟩ : DataEntry).id ∧
      d.key = (⟨1, "k", "v"⟩ : DataEntry).key ∧
      d.value = (⟨1, "k", "v"⟩ : DataEntry).value) ∧
    (∃ d ∈ (merge_extradata
        ⟨[⟨2, "k", "v"⟩, ⟨3, "k2", "w"⟩], [[2, 3]]⟩
        ⟨[⟨1, "k", "v"⟩], [[1]]⟩
        ⟨[⟨1, "k3", "z"⟩], [[1]]⟩).1, d.id = 3) :=
  ⟨(claim_C6_content_dedup
      ⟨[⟨2, "k", "v"⟩, ⟨3, "k2", "w"⟩], [[2, 3]]⟩
      ⟨[⟨1, "k", "v"⟩], [[1]]⟩
      ⟨[⟨1, "k3", "z"⟩], [[1]]⟩).1
    ⟨1, "k", "v"⟩ (by decide) ⟨1, "k", "v"⟩ (by decide) rfl rfl,
   (claim_C6_content_dedup
      ⟨[⟨2, "k", "v"⟩, ⟨3, "k2", "w"⟩], [[2, 3]]⟩
      ⟨[⟨1, "k", "v"⟩], [[1]]⟩
      ⟨[⟨1, "k3", "z"⟩], [[1]]⟩).2.1
    ⟨1, "k", "v"⟩ (by decide),
   (claim_C6_content_dedup
      ⟨[⟨2, "k", "v"⟩, ⟨3, "k2", "w"⟩], [[2, 3]]⟩
      ⟨[⟨1, "k", "v"⟩], [[1]]⟩
      ⟨[⟨1, "k3", "z"⟩], [[1]]⟩).2.2
    [1, 3] (by decide) 3 (by decide)⟩

end Assdiff3
